import Mathlib

/-!
# LRU cache of the C web server (`src/cache.c`)

A shallow embedding of `cache.c` and a verification of its specification.

Memory model.  Cache entries live in a heap `mem : List cache_entry` of
blocks; a non-null `struct cache_entry *` is an address (an index into `mem`),
the null pointer is `none`.  `free` releases a block: the call is recorded in
the log `freed` and the block is put on `avail`, the blocks the allocator may
hand out again, most recently released first.  `malloc` hands out the first
block of `avail` and takes a new block at the end of the heap only when
`avail` is empty, so after a release it returns a released block, also one
that the list still links.  The C code goes on reading and writing released
blocks through the pointers it kept: a released block keeps its links until it
is handed out again and overwritten.  What its other fields hold in between is
up to the allocator; the model leaves them in place.  Dereferencing the null
pointer is the fault `null_deref`; dereferencing an address outside the heap is
`wild_deref`.  The C `int` fields are integers wrapped to 32 bits after each
arithmetic step.
-/

namespace CWebServer

/-- A non-null `struct cache_entry *`: the address of an entry in the heap. -/
abbrev Ptr := Nat

/-- Ways in which an operation fails to return. -/
inductive Fault where
  | null_deref
  | wild_deref
  | out_of_fuel
deriving DecidableEq, Repr

/-- The `struct cache_entry` of `cache.h`, by the fields `cache.c` uses. -/
structure cache_entry where
  path : String
  content_type : String
  content_length : Int
  content : List Nat
  prev : Option Ptr
  next : Option Ptr
deriving DecidableEq, Repr

/-- One release of an object: a call of `free` on a non-null pointer, as
`free_entry` issues them, the release of the index by `hashtable_destroy`, or
the `free` of the cache itself. -/
inductive freed_obj where
  | path (s : String)
  | content_type (s : String)
  | content (bytes : List Nat)
  | entry (p : Ptr)
  | index
  | cache_struct
deriving DecidableEq, Repr

/-- Modelled from the spec: the Key Index (`struct hashtable` of `hashtable.h`,
not among the sources) is a finite map from key to entry pointer. -/
abbrev hashtable := List (String × Ptr)

/-- Modelled from the spec: `create(sizeHint, optionalComparator)` gives an
empty index. -/
def hashtable_create (_size : Int) : hashtable := []

/-- Modelled from the spec: `get(index, key)` gives the value or absent. -/
def hashtable_get : hashtable → String → Option Ptr
  | [], _ => none
  | (k, v) :: rest, key => if k = key then some v else hashtable_get rest key

/-- Modelled from the spec: `delete(index, key)` removes an entry and is a
no-op if the key is absent. -/
def hashtable_delete (ht : hashtable) (key : String) : hashtable :=
  ht.filter (fun kv => decide (kv.1 ≠ key))

/-- Modelled from the spec: `put(index, key, value)` inserts or overwrites. -/
def hashtable_put (ht : hashtable) (key : String) (data : Ptr) : hashtable :=
  (key, data) :: hashtable_delete ht key

/-- The `struct cache` of `cache.h` together with the heap its pointers refer
to, the log of released objects and the released entry blocks that `malloc`
may hand out again, most recently released first. -/
structure cache where
  max_size : Int
  cur_size : Int
  index : hashtable
  head : Option Ptr
  tail : Option Ptr
  mem : List cache_entry
  freed : List freed_obj
  avail : List Ptr
deriving DecidableEq, Repr

/-- A C `int` after an arithmetic step: the value wrapped to 32 bits. -/
def wrap_int (x : Int) : Int := (x + 2147483648) % 4294967296 - 2147483648

/-- Read of `p->...`: the object `p` points to. -/
def load (m : List cache_entry) : Option Ptr → Except Fault cache_entry
  | none => .error .null_deref
  | some a =>
    match m[a]? with
    | none => .error .wild_deref
    | some e => .ok e

/-- The assignment `p->prev = v`. -/
def store_prev (m : List cache_entry) (p : Option Ptr) (v : Option Ptr) :
    Except Fault (List cache_entry) :=
  match load m p, p with
  | .ok e, some a => .ok (m.set a { e with prev := v })
  | .ok _, none => .error .null_deref
  | .error f, _ => .error f

/-- The assignment `p->next = v`. -/
def store_next (m : List cache_entry) (p : Option Ptr) (v : Option Ptr) :
    Except Fault (List cache_entry) :=
  match load m p, p with
  | .ok e, some a => .ok (m.set a { e with next := v })
  | .ok _, none => .error .null_deref
  | .error f, _ => .error f

/-- `free(p)` for an entry pointer `p`: nothing happens on the null pointer;
otherwise the release is logged and the block becomes the first one `malloc`
hands out.  Nothing checks whether the block is linked in the list or has been
released before. -/
def free (c : cache) : Option Ptr → cache
  | none => c
  | some p => { c with freed := c.freed ++ [freed_obj.entry p], avail := p :: c.avail }

/-- `malloc(sizeof(struct cache_entry))` (cache.c:149): the most recently
released block if there is one, a new block at the end of the heap otherwise.
The block is not initialised: a block handed out again holds what it held when
it was released. -/
def malloc (c : cache) : Ptr × cache :=
  match c.avail with
  | [] => (c.mem.length, { c with mem := c.mem ++ [⟨"", "", 0, [], none, none⟩] })
  | p :: rest => (p, { c with avail := rest })

/-- `free_entry` (cache.c:24-36): returns at once on a null pointer, otherwise
calls `free` on `path`, `content_type`, `content`, `prev`, `next` and the entry
itself, in this order.  The three buffers are only logged; `prev`, `next` and
the entry are entry blocks and go through `free`. -/
def free_entry (c : cache) : Option Ptr → Except Fault cache
  | none => .ok c
  | some a => do
    let e ← load c.mem (some a)
    let c1 := { c with
      freed := c.freed ++ [freed_obj.path e.path, freed_obj.content_type e.content_type,
        freed_obj.content e.content] }
    let c2 := free c1 e.prev
    let c3 := free c2 e.next
    pure (free c3 (some a))

/-- `dllist_insert_head` (cache.c:41-56). -/
def dllist_insert_head (c : cache) (ce : Ptr) : Except Fault cache :=
  match c.head with
  | none => do
    let c1 := { c with tail := some ce, head := some ce }
    let m1 ← store_next c1.mem (some ce) none
    let m2 ← store_prev m1 (some ce) none
    pure { c1 with mem := m2 }
  | some h => do
    let m1 ← store_prev c.mem (some h) (some ce)
    let m2 ← store_next m1 (some ce) (some h)
    let m3 ← store_prev m2 (some ce) none
    pure { c with mem := m3, head := some ce }

/-- `dllist_move_to_head` (cache.c:61-83). -/
def dllist_move_to_head (c : cache) (ce : Ptr) : Except Fault cache :=
  if some ce ≠ c.head then do
    let c1 ←
      if some ce = c.tail then do
        let e ← load c.mem (some ce)
        let m1 ← store_next c.mem e.prev none
        pure { c with tail := e.prev, mem := m1 }
      else do
        let e ← load c.mem (some ce)
        let m1 ← store_next c.mem e.prev e.next
        let e1 ← load m1 (some ce)
        let m2 ← store_prev m1 e1.next e1.prev
        pure { c with mem := m2 }
    let m3 ← store_next c1.mem (some ce) c1.head
    let m4 ← store_prev m3 c1.head (some ce)
    let m5 ← store_prev m4 (some ce) none
    pure { c1 with mem := m5, head := some ce }
  else pure c

/-- `dllist_remove_tail` (cache.c:90-100): returns the old tail. -/
def dllist_remove_tail (c : cache) : Except Fault (Option Ptr × cache) := do
  let oldtail := c.tail
  let e ← load c.mem oldtail
  let c1 := { c with tail := e.prev }
  let m1 ← store_next c1.mem c1.tail none
  pure (oldtail, { c1 with mem := m1, cur_size := wrap_int (c1.cur_size - 1) })

/-- `cache_create` (cache.c:108-120). -/
def cache_create (max_size hashsize : Int) : cache :=
  { max_size := max_size, cur_size := 0, index := hashtable_create hashsize,
    head := none, tail := none, mem := [], freed := [], avail := [] }

/-- The eviction loop of `cache_put` (cache.c:160-167), `fuel` bounding the
number of iterations. -/
def cache_put_loop : Nat → cache → String → Except Fault cache
  | fuel, c, path =>
    if c.cur_size > c.max_size then
      match fuel with
      | 0 => .error .out_of_fuel
      | n + 1 => do
        let (old_tail, c1) ← dllist_remove_tail c
        let c2 := { c1 with index := hashtable_delete c1.index path }
        let c3 ← free_entry c2 old_tail
        let c4 := { c3 with cur_size := wrap_int (c3.cur_size - 1) }
        cache_put_loop n c4 path
    else .ok c

/-- The five assignments `entry->path = path; ... entry->prev = NULL`
(cache.c:150-154) to the block `entry`; its `next` field is left as it is. -/
def init_entry (m : List cache_entry) (entry : Ptr) (path content_type : String)
    (content : List Nat) (content_length : Int) : Except Fault (List cache_entry) := do
  let e ← load m (some entry)
  pure (m.set entry ⟨path, content_type, content_length, content, none, e.next⟩)

/-- `cache_put` (cache.c:147-168).  The block of the new entry comes from
`malloc`; its `next` field, which the C code leaves uninitialised, is assigned
by `dllist_insert_head` on both of its branches.  The loop gets as much fuel
as `cur_size` exceeds `max_size`. -/
def cache_put (c : cache) (path content_type : String) (content : List Nat)
    (content_length : Int) : Except Fault cache := do
  let (entry, c0) := malloc c
  let m0 ← init_entry c0.mem entry path content_type content content_length
  let c1 := { c0 with mem := m0, cur_size := wrap_int (c0.cur_size + 1) }
  let c2 ← dllist_insert_head c1 entry
  let c3 := { c2 with index := hashtable_put c2.index path entry }
  cache_put_loop (c3.cur_size - c3.max_size).toNat c3 path

/-- The part of `cache_put` before the eviction loop (cache.c:149-158): the new
entry is allocated, filled, counted, linked at the head and indexed. -/
def cache_put_linked (c : cache) (path content_type : String) (content : List Nat)
    (content_length : Int) : Except Fault cache := do
  let (entry, c0) := malloc c
  let m0 ← init_entry c0.mem entry path content_type content content_length
  let c1 := { c0 with mem := m0, cur_size := wrap_int (c0.cur_size + 1) }
  let c2 ← dllist_insert_head c1 entry
  pure { c2 with index := hashtable_put c2.index path entry }

/-- The loop of `cache_free` (cache.c:128-135) from `cur_entry`, `fuel` bounding
the number of iterations: `next_entry` is read before the entry is released. -/
def cache_free_loop : Nat → cache → Option Ptr → Except Fault cache
  | _, c, none => .ok c
  | 0, _, some _ => .error .out_of_fuel
  | n + 1, c, some a => do
    let e ← load c.mem (some a)
    let c1 ← free_entry c (some a)
    cache_free_loop n c1 e.next

/-- `cache_free` (cache.c:122-138): the index is released (modelled from the
spec: `destroy(index)` releases the storage of the index, not the stored
values), the entries are released from `head` along `next`, then the cache
itself.  The result is the log of all releases; the loop gets as much fuel as
the heap has entries. -/
def cache_free (c : cache) : Except Fault (List freed_obj) := do
  let cur_entry := c.head
  let c0 := { c with freed := c.freed ++ [freed_obj.index] }
  let c1 ← cache_free_loop c.mem.length c0 cur_entry
  pure (c1.freed ++ [freed_obj.cache_struct])

/-- `cache_get` (cache.c:173-180): the entry found, or `none` for NULL. -/
def cache_get (c : cache) (path : String) : Except Fault (Option Ptr × cache) :=
  match hashtable_get c.index path with
  | none => .ok (none, c)
  | some entry => do
    let c1 ← dllist_move_to_head c entry
    pure (some entry, c1)

/-- The `next` link of the entry at address `a` (null when `a` is outside the heap). -/
def nextOf (m : List cache_entry) (a : Nat) : Option Nat :=
  match m[a]? with
  | some e => e.next
  | none => none

/-- The `prev` link of the entry at address `a` (null when `a` is outside the heap). -/
def prevOf (m : List cache_entry) (a : Nat) : Option Nat :=
  match m[a]? with
  | some e => e.prev
  | none => none

/-- The payload fields (`path`, `content_type`, `content_length`, `content`) of the
entry at address `a`. -/
def payloadOf (m : List cache_entry) (a : Nat) : Option (String × String × Int × List Nat) :=
  match m[a]? with
  | some e => some (e.path, e.content_type, e.content_length, e.content)
  | none => none

/-- Entry `b` directly follows entry `a`: `a->next == b` and `b->prev == a`. -/
def link (m : List cache_entry) (a b : Nat) : Prop :=
  nextOf m a = some b ∧ prevOf m b = some a

/-- The heap `m` holds the doubly-linked list whose entries are, from head to
tail, the addresses `L`: distinct allocated entries, each linked to the next,
with no `prev` at the head and no `next` at the tail. -/
def dll (m : List cache_entry) (L : List Nat) : Prop :=
  L.Nodup ∧ (∀ a ∈ L, a < m.length) ∧ L.Chain' (link m) ∧
  (∀ a, L.head? = some a → prevOf m a = none) ∧
  (∀ a, L.getLast? = some a → nextOf m a = none)

/-- The addresses visited from `p` by following `next`, at most `fuel` of them. -/
def walk_next (m : List cache_entry) : Nat → Option Ptr → List Ptr
  | 0, _ => []
  | _ + 1, none => []
  | n + 1, some a => a :: walk_next m n (nextOf m a)

/-- The addresses visited from `p` by following `prev`, at most `fuel` of them. -/
def walk_prev (m : List cache_entry) : Nat → Option Ptr → List Ptr
  | 0, _ => []
  | _ + 1, none => []
  | n + 1, some a => a :: walk_prev m n (prevOf m a)

/-- The entries reachable from `head` via `next`, in order (a traversal visits
at most as many entries as the heap holds). -/
def entries_from_head (c : cache) : List Ptr := walk_next c.mem c.mem.length c.head

/-- The entries reachable from `tail` via `prev`, in order. -/
def entries_from_tail (c : cache) : List Ptr := walk_prev c.mem c.mem.length c.tail

/-- The recency list of the cache is the well-formed list `L`: the heap holds
`L` as a doubly-linked list, from `head` to `tail`. -/
def list_is (c : cache) (L : List Nat) : Prop :=
  dll c.mem L ∧ c.head = L.head? ∧ c.tail = L.getLast?

/-- Doubly-linked well-formedness in terms of the two traversals: `head` and
`tail` are null or allocated entries, `head->prev` and `tail->next` are null,
the entries visited from `head` via `next` are allocated and are the reverse of
those visited from `tail` via `prev`, and `x->next->prev == x` for every visited
entry `x` that has a `next`. -/
def list_wf (c : cache) : Prop :=
  (∀ h : Nat, c.head = some h → h < c.mem.length ∧ prevOf c.mem h = none) ∧
  (∀ t : Nat, c.tail = some t → t < c.mem.length ∧ nextOf c.mem t = none) ∧
  entries_from_head c = (entries_from_tail c).reverse ∧
  (∀ x : Nat, x ∈ entries_from_head c → x < c.mem.length) ∧
  (∀ x : Nat, x ∈ entries_from_head c → ∀ y : Nat, nextOf c.mem x = some y →
    prevOf c.mem y = some x)

/-- The number of times the entry at address `p` is released in a log. -/
def release_count (log : List freed_obj) (p : Ptr) : Nat :=
  log.count (freed_obj.entry p)

/-- The keys (`path` fields) of the given entries. -/
def keys_of (m : List cache_entry) (ps : List Ptr) : List String :=
  ps.filterMap (fun a => (m[a]?).map (fun e => e.path))

/-- The keys present in the Key Index. -/
def index_keys (c : cache) : List String := c.index.map Prod.fst

/-- One call of the public interface: `cache_put` or `cache_get`. -/
inductive Op where
  | put (path content_type : String) (content : List Nat) (content_length : Int)
  | get (path : String)
deriving DecidableEq, Repr

/-- The cache after one call (the entry returned by `cache_get` is dropped). -/
def step (c : cache) : Op → Except Fault cache
  | .put path content_type content content_length =>
    cache_put c path content_type content content_length
  | .get path =>
    match cache_get c path with
    | .ok r => .ok r.2
    | .error f => .error f

/-- The cache after a sequence of calls, in order. -/
def run (c : cache) : List Op → Except Fault cache
  | [] => .ok c
  | op :: ops =>
    match step c op with
    | .ok c1 => run c1 ops
    | .error f => .error f

/-! ### The states of the scenarios

Entries are stored under the keys `"a"` to `"e"`.  The first three blocks the
allocator takes are the addresses 0, 1 and 2; after an eviction it hands out
released blocks again. -/

/-- The entry stored under `"a"`, with the given links. -/
def entry_a (prev next : Option Ptr) : cache_entry := ⟨"a", "text/html", 1, [1], prev, next⟩

/-- The entry stored under `"b"`, with the given links. -/
def entry_b (prev next : Option Ptr) : cache_entry := ⟨"b", "text/css", 2, [2, 2], prev, next⟩

/-- The entry stored under `"c"`, with the given links. -/
def entry_c (prev next : Option Ptr) : cache_entry :=
  ⟨"c", "text/plain", 3, [3, 3, 3], prev, next⟩

/-- The entry stored under `"d"`, with the given links. -/
def entry_d (prev next : Option Ptr) : cache_entry :=
  ⟨"d", "text/xml", 4, [4, 4, 4, 4], prev, next⟩

/-- The entry stored under `"e"`, with the given links. -/
def entry_e (prev next : Option Ptr) : cache_entry :=
  ⟨"e", "text/csv", 5, [5, 5, 5, 5, 5], prev, next⟩

/-- The calls of `free` made by `free_entry` on entry `"a"` (address 0) when its
`prev` is entry 1. -/
def freed_a : List freed_obj :=
  [.path "a", .content_type "text/html", .content [1], .entry 1, .entry 0]

/-- The calls of `free` made by `free_entry` on entry `"b"` (address 1) when its
`prev` is entry 0. -/
def freed_b : List freed_obj :=
  [.path "b", .content_type "text/css", .content [2, 2], .entry 0, .entry 1]

/-- The releases made by `cache_free` on the cache of capacity 2 holding `b`
(entry 1, the head) and `a` (entry 0, the tail), in order. -/
def released_ab : List freed_obj :=
  [.index, .path "b", .content_type "text/css", .content [2, 2], .entry 0, .entry 1,
    .path "a", .content_type "text/html", .content [1], .entry 1, .entry 0, .cache_struct]

/-- Capacity 2, after `put a`. -/
def cap2_after_a : cache :=
  ⟨2, 1, [("a", 0)], some 0, some 0, [entry_a none none], [], []⟩

/-- Capacity 2, inside `put b` after `put a`: the new entry 1 is allocated and
counted, not yet linked. -/
def cap2_a_b_allocated : cache :=
  ⟨2, 2, [("a", 0)], some 0, some 0, [entry_a none none, entry_b none none], [], []⟩

/-- Capacity 2, after `put a`, `put b`. -/
def cap2_after_ab : cache :=
  ⟨2, 2, [("b", 1), ("a", 0)], some 1, some 0,
    [entry_a (some 1) none, entry_b none (some 0)], [], []⟩

/-- Capacity 2, after `put a`, `put b`, `put c`: entry 0 is evicted; the blocks
0 and 1 are released, block 1 being the tail of the list. -/
def cap2_after_abc : cache :=
  ⟨2, 1, [("b", 1), ("a", 0)], some 2, some 1,
    [entry_a (some 1) none, entry_b (some 2) none, entry_c none (some 1)], freed_a, [0, 1]⟩

/-- Capacity 2, inside `put c` after `put a`, `put b`: the new entry is linked
and indexed, the eviction loop has not run yet. -/
def cap2_abc_linked : cache :=
  ⟨2, 3, [("c", 2), ("b", 1), ("a", 0)], some 2, some 0,
    [entry_a (some 1) none, entry_b (some 2) (some 0), entry_c none (some 1)], [], []⟩

/-- Capacity 2, after `put a`, `put b`, `put c`, `put d`: the put of `d` got
block 0 again; block 1, the tail, is the next block `malloc` hands out. -/
def cap2_after_abcd : cache :=
  ⟨2, 2, [("d", 0), ("b", 1), ("a", 0)], some 0, some 1,
    [entry_d none (some 2), entry_b (some 2) none, entry_c (some 0) (some 1)], freed_a, [1]⟩

/-- Capacity 2, inside `put e` after `put a` to `put d`: the new entry is block
1, which was the tail of the list; it is linked before the old head and
indexed, the eviction loop has not run yet. -/
def cap2_abcde_linked : cache :=
  ⟨2, 3, [("e", 1), ("d", 0), ("b", 1), ("a", 0)], some 1, some 1,
    [entry_d (some 1) (some 2), entry_e none (some 0), entry_c (some 0) (some 1)], freed_a, []⟩

/-- Capacity 2, after `put a`, `put b`, `get a`. -/
def cap2_after_ab_geta : cache :=
  ⟨2, 2, [("b", 1), ("a", 0)], some 0, some 1,
    [entry_a none (some 1), entry_b (some 0) none], [], []⟩

/-- Capacity 2, after `put a`, `put b`, `get a`, `put c`. -/
def cap2_after_ab_geta_c : cache :=
  ⟨2, 1, [("b", 1), ("a", 0)], some 2, some 0,
    [entry_a (some 2) none, entry_b (some 0) none, entry_c none (some 0)], freed_b, [1, 0]⟩

/-- Capacity 2, inside `put c` after `put a`, `put b`, `get a`: the new entry is
linked and indexed, the eviction loop has not run yet. -/
def cap2_ab_geta_c_linked : cache :=
  ⟨2, 3, [("c", 2), ("b", 1), ("a", 0)], some 2, some 1,
    [entry_a (some 2) (some 1), entry_b (some 0) none, entry_c none (some 0)], [], []⟩

/-- Capacity 0, inside `put a` on the new cache: the new entry is linked and
indexed, the eviction loop has not run yet. -/
def cap0_a_linked : cache :=
  ⟨0, 1, [("a", 0)], some 0, some 0, [entry_a none none], [], []⟩

/-- Capacity 1, after `put a`. -/
def cap1_after_a : cache :=
  ⟨1, 1, [("a", 0)], some 0, some 0, [entry_a none none], [], []⟩

/-- Capacity 1, inside `put b` after `put a`: the new entry is linked and
indexed, the eviction loop has not run yet. -/
def cap1_ab_linked : cache :=
  ⟨1, 2, [("b", 1), ("a", 0)], some 1, some 0,
    [entry_a (some 1) none, entry_b none (some 0)], [], []⟩

/-- Capacity 1, after `put a`, `put b`: entry 0 is evicted; the blocks 0 and 1
are released, block 1 being the head and tail of the list. -/
def cap1_after_ab : cache :=
  ⟨1, 0, [("a", 0)], some 1, some 1, [entry_a (some 1) none, entry_b none none], freed_a,
    [0, 1]⟩

/-- Capacity 1, after `put a`, `put b`, `put c`: the put of `c` got block 0
again; block 1, the tail, is the next block `malloc` hands out. -/
def cap1_after_abc : cache :=
  ⟨1, 1, [("c", 0), ("a", 0)], some 0, some 1,
    [entry_c none (some 1), entry_b (some 0) none], freed_a, [1]⟩

/-- Capacity 1, inside `put d` after `put a`, `put b`, `put c`: the new entry
is block 1, which was the tail of the list; it is linked before the old head
and indexed, the eviction loop has not run yet. -/
def cap1_abcd_linked : cache :=
  ⟨1, 2, [("d", 1), ("c", 0), ("a", 0)], some 1, some 1,
    [entry_c (some 1) (some 1), entry_d none (some 0)], freed_a, []⟩

end CWebServer


namespace CWebServer

/-! ## Integers, index and heap: basic facts -/

theorem wrap_int_eq (x : Int) (h1 : -2147483648 ≤ x) (h2 : x < 2147483648) :
    wrap_int x = x := by
  unfold wrap_int; omega

theorem hashtable_get_delete (ht : hashtable) (k key : String) :
    hashtable_get (hashtable_delete ht k) key = if key = k then none else hashtable_get ht key := by
  induction ht with
  | nil => simp [hashtable_delete, hashtable_get]
  | cons kv rest ih =>
    obtain ⟨k1, v1⟩ := kv
    simp only [hashtable_delete, decide_not] at ih ⊢
    by_cases h1 : k1 = k
    · subst h1
      by_cases h2 : key = k1
      · subst h2
        simp [List.filter, ih]
      · have h3 : ¬ k1 = key := fun h => h2 h.symm
        simp [List.filter, ih, h2, hashtable_get, h3]
    · by_cases h2 : key = k
      · subst h2
        simp [List.filter, h1, hashtable_get, ih]
      · simp [List.filter, h1, hashtable_get, ih, h2]

theorem hashtable_get_put (ht : hashtable) (k key : String) (v : Nat) :
    hashtable_get (hashtable_put ht k v) key = if key = k then some v else hashtable_get ht key := by
  unfold hashtable_put
  by_cases h : key = k
  · subst h; simp [hashtable_get]
  · have h3 : ¬ k = key := fun h' => h h'.symm
    simp [hashtable_get, h, h3, hashtable_get_delete]

theorem load_ok (m : List cache_entry) (a : Nat) (h : a < m.length) :
    ∃ e, m[a]? = some e ∧ load m (some a) = .ok e ∧ e.next = nextOf m a ∧ e.prev = prevOf m a := by
  refine ⟨m[a], List.getElem?_eq_getElem h, ?_, ?_, ?_⟩ <;>
    simp [load, nextOf, prevOf, List.getElem?_eq_getElem h]

theorem store_next_ok (m : List cache_entry) (a : Nat) (v : Option Nat) (h : a < m.length) :
    ∃ m1, store_next m (some a) v = .ok m1 ∧ m1.length = m.length ∧
      (∀ x, nextOf m1 x = if x = a then v else nextOf m x) ∧
      (∀ x, prevOf m1 x = prevOf m x) ∧ (∀ x, payloadOf m1 x = payloadOf m x) := by
  refine ⟨m.set a { m[a] with next := v }, ?_, by simp, ?_, ?_, ?_⟩
  · simp [store_next, load, List.getElem?_eq_getElem h]
  all_goals
    intro x
    by_cases hx : x = a
    · subst hx; simp [nextOf, prevOf, payloadOf, List.getElem?_set_self h, List.getElem?_eq_getElem h]
    · have hx2 : a ≠ x := fun h' => hx h'.symm
      simp [nextOf, prevOf, payloadOf, List.getElem?_set_ne hx2, hx]

theorem store_prev_ok (m : List cache_entry) (a : Nat) (v : Option Nat) (h : a < m.length) :
    ∃ m1, store_prev m (some a) v = .ok m1 ∧ m1.length = m.length ∧
      (∀ x, prevOf m1 x = if x = a then v else prevOf m x) ∧
      (∀ x, nextOf m1 x = nextOf m x) ∧ (∀ x, payloadOf m1 x = payloadOf m x) := by
  refine ⟨m.set a { m[a] with prev := v }, ?_, by simp, ?_, ?_, ?_⟩
  · simp [store_prev, load, List.getElem?_eq_getElem h]
  all_goals
    intro x
    by_cases hx : x = a
    · subst hx; simp [nextOf, prevOf, payloadOf, List.getElem?_set_self h, List.getElem?_eq_getElem h]
    · have hx2 : a ≠ x := fun h' => hx h'.symm
      simp [nextOf, prevOf, payloadOf, List.getElem?_set_ne hx2, hx]

/-! ## The recency list as a sequence of addresses -/

theorem chain_frame {m m1 : List cache_entry} {L : List Nat} (hc : L.Chain' (link m))
    (hn : ∀ x ∈ L.dropLast, nextOf m1 x = nextOf m x)
    (hp : ∀ y ∈ L.tail, prevOf m1 y = prevOf m y) : L.Chain' (link m1) := by
  induction L with
  | nil => exact List.chain'_nil
  | cons a r ih =>
    cases r with
    | nil => exact List.chain'_singleton a
    | cons b r =>
      rw [List.chain'_cons] at hc ⊢
      refine ⟨⟨?_, ?_⟩, ih hc.2 ?_ ?_⟩
      · rw [hn a (by simp)]; exact hc.1.1
      · rw [hp b (by simp)]; exact hc.1.2
      · intro x hx
        exact hn x (by simp only [List.dropLast_cons₂]; exact List.mem_cons_of_mem _ hx)
      · intro y hy
        exact hp y (by simp only [List.tail_cons] at hy ⊢; exact List.mem_cons_of_mem _ hy)

theorem dll_single {m : List cache_entry} {p : Nat} (hpl : p < m.length)
    (hnx : nextOf m p = none) (hpv : prevOf m p = none) : dll m [p] := by
  refine ⟨by simp, ?_, List.chain'_singleton p, ?_, ?_⟩
  · intro a ha; simp at ha; omega
  · intro a ha; simp at ha; subst ha; exact hpv
  · intro a ha; simp at ha; subst ha; exact hnx

theorem dll_cons {m m1 : List cache_entry} {L : List Nat} {h p : Nat} (hd : dll m L)
    (hhead : L.head? = some h) (hp : p ∉ L) (hpl : p < m.length) (hlen : m1.length = m.length)
    (hnx : ∀ x, nextOf m1 x = if x = p then some h else nextOf m x)
    (hpv : ∀ x, prevOf m1 x = if x = p then none else if x = h then some p else prevOf m x) :
    dll m1 (p :: L) := by
  obtain ⟨hnd, hval, hch, hhd, hlast⟩ := hd
  cases L with
  | nil => simp at hhead
  | cons h0 r =>
    simp only [List.head?_cons, Option.some.injEq] at hhead
    subst hhead
    have hne : h0 ≠ p := fun e => hp (by simp [e])
    refine ⟨List.nodup_cons.mpr ⟨hp, hnd⟩, ?_, ?_, ?_, ?_⟩
    · intro a ha
      rcases List.mem_cons.mp ha with rfl | ha
      · omega
      · have := hval a ha; omega
    · rw [List.chain'_cons]
      refine ⟨⟨by simp [hnx], by simp [hpv, hne]⟩, chain_frame hch ?_ ?_⟩
      · intro x hx
        have hx2 : x ∈ h0 :: r := List.mem_of_mem_dropLast hx
        have : x ≠ p := fun e => hp (e ▸ hx2)
        simp [hnx, this]
      · intro y hy
        simp only [List.tail_cons] at hy
        have h1 : y ≠ p := fun e => hp (by simp [← e, hy])
        have h2 : y ≠ h0 := fun e => (List.nodup_cons.mp hnd).1 (e ▸ hy)
        simp [hpv, h1, h2]
    · intro a ha; simp at ha; subst ha; simp [hpv]
    · intro a ha
      simp only [List.getLast?_cons_cons] at ha
      have ha2 : a ∈ h0 :: r := List.mem_of_getLast?_eq_some ha
      have : a ≠ p := fun e => hp (e ▸ ha2)
      rw [hnx, if_neg this]
      exact hlast a ha

theorem dll_drop_tail {m m1 : List cache_entry} {A : List Nat} {b t : Nat}
    (hd : dll m (A ++ [b, t])) (hlen : m1.length = m.length)
    (hnx : ∀ x, nextOf m1 x = if x = b then none else nextOf m x)
    (hpv : ∀ x, prevOf m1 x = prevOf m x) : dll m1 (A ++ [b]) := by
  obtain ⟨hnd, hval, hch, hhd, hlast⟩ := hd
  have hnd2 : (A ++ [b]).Nodup := by
    have e : A ++ [b, t] = (A ++ [b]) ++ [t] := by simp
    rw [e] at hnd
    exact hnd.of_append_left
  refine ⟨hnd2, ?_, ?_, ?_, ?_⟩
  · intro a ha
    have : a ∈ A ++ [b, t] := by
      simp only [List.mem_append, List.mem_cons, List.mem_singleton, List.not_mem_nil,
        or_false] at ha ⊢
      tauto
    have := hval a this; omega
  · refine chain_frame (List.chain'_split.mp hch).1 ?_ ?_
    · intro x hx
      simp only [List.dropLast_concat] at hx
      have : x ≠ b := by
        intro e; subst e
        have := List.nodup_append.mp hnd2
        exact this.2.2 hx (by simp)
      simp [hnx, this]
    · intro y _; exact hpv y
  · intro a ha
    rw [hpv]
    apply hhd
    cases A with
    | nil => simpa using ha
    | cons a0 A => simpa using ha
  · intro a ha
    simp at ha; subst ha; simp [hnx]

theorem dll_unlink_mid {m m1 : List cache_entry} {A B : List Nat} {a p b : Nat}
    (hd : dll m (A ++ a :: p :: b :: B)) (hlen : m1.length = m.length)
    (hnx : ∀ x, nextOf m1 x = if x = a then some b else nextOf m x)
    (hpv : ∀ x, prevOf m1 x = if x = b then some a else prevOf m x) :
    dll m1 (A ++ a :: b :: B) := by
  obtain ⟨hnd, hval, hch, hhd, hlast⟩ := hd
  have hnd2 : (A ++ a :: b :: B).Nodup := by
    refine hnd.sublist ?_
    exact List.Sublist.append_left ((List.sublist_cons_self p (b :: B)).cons₂ a) A
  have hsub : ∀ x, x ∈ A ++ a :: b :: B → x ∈ A ++ a :: p :: b :: B := by
    intro x hx
    simp only [List.mem_append, List.mem_cons] at hx ⊢
    tauto
  have hnA : a ∉ A := by
    intro h
    exact (List.nodup_append.mp hnd2).2.2 h (by simp)
  have hnb : b ∉ A ++ [a] := by
    intro h
    have e : A ++ a :: b :: B = (A ++ [a]) ++ b :: B := by simp
    rw [e] at hnd2
    exact (List.nodup_append.mp hnd2).2.2 h (by simp)
  have hnd3 : (a :: b :: B).Nodup := hnd2.of_append_right
  have hab : a ∉ b :: B := (List.nodup_cons.mp hnd3).1
  have hbB : b ∉ B := (List.nodup_cons.mp (List.nodup_cons.mp hnd3).2).1
  have hc1 := List.chain'_split.mp hch
  have hc2 : List.Chain' (link m) (b :: B) := by
    have := hc1.2
    rw [List.chain'_cons, List.chain'_cons] at this
    exact this.2.2
  refine ⟨hnd2, ?_, ?_, ?_, ?_⟩
  · intro x hx
    have := hval x (hsub x hx); omega
  · refine List.chain'_split.mpr ⟨chain_frame hc1.1 ?_ ?_, ?_⟩
    · intro x hx
      simp only [List.dropLast_concat] at hx
      have : x ≠ a := fun e => hnA (e ▸ hx)
      simp [hnx, this]
    · intro y hy
      have hy2 : y ∈ A ++ [a] := List.mem_of_mem_tail hy
      have : y ≠ b := fun e => hnb (e ▸ hy2)
      simp [hpv, this]
    · rw [List.chain'_cons]
      refine ⟨⟨by simp [hnx], by simp [hpv]⟩, chain_frame hc2 ?_ ?_⟩
      · intro x hx
        have hx2 : x ∈ b :: B := List.mem_of_mem_dropLast hx
        have : x ≠ a := fun e => hab (e ▸ hx2)
        simp [hnx, this]
      · intro y hy
        simp only [List.tail_cons] at hy
        have : y ≠ b := fun e => hbB (e ▸ hy)
        simp [hpv, this]
  · intro x hx
    have hx2 : x ∈ A ++ [a] := by
      cases A with
      | nil => simp at hx; simp [hx]
      | cons a0 A => simp at hx; simp [hx]
    have : x ≠ b := fun e => hnb (e ▸ hx2)
    rw [hpv, if_neg this]
    apply hhd
    cases A with
    | nil => simpa using hx
    | cons a0 A => simpa using hx
  · intro x hx
    have e1 : A ++ a :: b :: B = (A ++ [a]) ++ b :: B := by simp
    have e2 : A ++ a :: p :: b :: B = (A ++ [a, p]) ++ b :: B := by simp
    rw [e1, List.getLast?_append_cons] at hx
    have hx2 : x ∈ b :: B := List.mem_of_getLast?_eq_some hx
    have : x ≠ a := fun e => hab (e ▸ hx2)
    rw [hnx, if_neg this]
    apply hlast
    rw [e2, List.getLast?_append_cons]
    exact hx

theorem dllist_insert_head_spec (c : cache) (ce : Nat) (L : List Nat)
    (hd : dll c.mem L) (hh : c.head = L.head?) (ht : c.tail = L.getLast?)
    (hce : ce < c.mem.length) (hnot : ce ∉ L) :
    ∃ m1, dllist_insert_head c ce
        = .ok { c with mem := m1, head := some ce, tail := (ce :: L).getLast? } ∧
      dll m1 (ce :: L) ∧ m1.length = c.mem.length ∧
      (∀ x, x ≠ ce → nextOf m1 x = nextOf c.mem x) ∧
      (∀ x, payloadOf m1 x = payloadOf c.mem x) := by
  cases L with
  | nil =>
    obtain ⟨m1, e1, l1, n1, p1, y1⟩ := store_next_ok c.mem ce none hce
    obtain ⟨m2, e2, l2, p2, n2, y2⟩ := store_prev_ok m1 ce none (by omega)
    refine ⟨m2, ?_, dll_single (by omega) (by simp [n2, n1]) (by simp [p2]), by omega, ?_, ?_⟩
    · simp only [List.head?_nil] at hh
      simp [dllist_insert_head, hh, e1, e2, bind, Except.bind, pure, Except.pure]
    · intro x hx; simp [n2, n1, hx]
    · intro x; rw [y2, y1]
  | cons h r =>
    have hhl : h < c.mem.length := hd.2.1 h (by simp)
    obtain ⟨m1, e1, l1, p1, n1, y1⟩ := store_prev_ok c.mem h (some ce) hhl
    obtain ⟨m2, e2, l2, n2, p2, y2⟩ := store_next_ok m1 ce (some h) (by omega)
    obtain ⟨m3, e3, l3, p3, n3, y3⟩ := store_prev_ok m2 ce none (by omega)
    have hnx : ∀ x, nextOf m3 x = if x = ce then some h else nextOf c.mem x := by
      intro x; rw [n3, n2, n1]
    have hpv : ∀ x, prevOf m3 x
        = if x = ce then none else if x = h then some ce else prevOf c.mem x := by
      intro x; rw [p3, p2, p1]
    refine ⟨m3, ?_, dll_cons hd (by simp) hnot hce (by omega) hnx hpv, by omega, ?_, ?_⟩
    · simp only [List.head?_cons] at hh
      simp only [List.getLast?_cons_cons]
      simp [dllist_insert_head, hh, e1, e2, e3, bind, Except.bind, pure, Except.pure, ht]
    · intro x hx; simp [hnx, hx]
    · intro x; rw [y3, y2, y1]

theorem link_of_dll {m : List cache_entry} {A B : List Nat} {a b : Nat}
    (hd : dll m (A ++ a :: b :: B)) : link m a b := by
  have := (List.chain'_split.mp hd.2.2.1).2
  rw [List.chain'_cons] at this
  exact this.1

theorem dllist_remove_tail_spec (c : cache) (A : List Nat) (b t : Nat)
    (hd : dll c.mem (A ++ [b, t])) (ht : c.tail = some t) :
    ∃ m1, dllist_remove_tail c
        = .ok (some t, { c with tail := some b, mem := m1,
                                cur_size := wrap_int (c.cur_size - 1) }) ∧
      dll m1 (A ++ [b]) ∧ m1.length = c.mem.length ∧
      (∀ x, x ≠ b → nextOf m1 x = nextOf c.mem x) ∧
      (∀ x, payloadOf m1 x = payloadOf c.mem x) := by
  have htl : t < c.mem.length := hd.2.1 t (by simp)
  have hbl : b < c.mem.length := hd.2.1 b (by simp)
  have hlk : link c.mem b t := link_of_dll hd
  obtain ⟨e, _, hload, _, hep⟩ := load_ok c.mem t htl
  rw [hlk.2] at hep
  obtain ⟨m1, e1, l1, n1, p1, y1⟩ := store_next_ok c.mem b none hbl
  refine ⟨m1, ?_, dll_drop_tail hd l1 n1 p1, l1, ?_, y1⟩
  · simp [dllist_remove_tail, ht, hload, hep, e1, bind, Except.bind, pure, Except.pure]
  · intro x hx; simp [n1, hx]

theorem dllist_move_to_head_spec (c : cache) (A B : List Nat) (p : Nat)
    (hd : dll c.mem (A ++ p :: B)) (hh : c.head = (A ++ p :: B).head?)
    (ht : c.tail = (A ++ p :: B).getLast?) :
    ∃ m1, dllist_move_to_head c p
        = .ok { c with mem := m1, head := some p, tail := (p :: (A ++ B)).getLast? } ∧
      dll m1 (p :: (A ++ B)) ∧ m1.length = c.mem.length ∧
      (∀ x, x ∉ A ++ p :: B → nextOf m1 x = nextOf c.mem x) ∧
      (∀ x, payloadOf m1 x = payloadOf c.mem x) := by
  rcases List.eq_nil_or_concat A with rfl | ⟨A1, a, rfl⟩
  · simp only [List.nil_append, List.head?_cons] at hh ht hd ⊢
    refine ⟨c.mem, ?_, hd, rfl, fun _ _ => rfl, fun _ => rfl⟩
    simp only [dllist_move_to_head, hh, pure, Except.pure, ← ht, ne_eq, not_true_eq_false,
      if_false]
    cases c
    simp_all
  · simp only [List.concat_eq_append] at hd hh ht ⊢
    have hnd := hd.1
    have hpl : p < c.mem.length := hd.2.1 p (by simp)
    have hal : a < c.mem.length := hd.2.1 a (by simp)
    have hd2 : dll c.mem (A1 ++ a :: p :: B) := by simpa using hd
    have hlk : link c.mem a p := link_of_dll hd2
    have hpA : p ∉ A1 ++ [a] := by
      intro h
      exact (List.nodup_append.mp hnd).2.2 h (by simp)
    obtain ⟨h0, hh0, hh1⟩ : ∃ h0, (A1 ++ [a]).head? = some h0 ∧ c.head = some h0 := by
      cases A1 with
      | nil => exact ⟨a, by simp, by simpa using hh⟩
      | cons a0 A1 => exact ⟨a0, by simp, by simpa using hh⟩
    have hh0m : h0 ∈ A1 ++ [a] := List.mem_of_mem_head? hh0
    have hh0l : h0 < c.mem.length := hd.2.1 h0 (by
      simp only [List.mem_append, List.mem_cons] at hh0m ⊢; tauto)
    have hne : some p ≠ c.head := by
      rw [hh1]; intro e
      simp only [Option.some.injEq] at e
      exact hpA (e ▸ hh0m)
    have hph : ¬ p = h0 := fun e => hpA (e ▸ hh0m)
    obtain ⟨e, _, hload, hen, hep⟩ := load_ok c.mem p hpl
    rw [hlk.2] at hep
    cases B with
    | nil =>
      have ht2 : c.tail = some p := by simpa using ht
      obtain ⟨m1, e1, l1, n1, p1, y1⟩ := store_next_ok c.mem a none hal
      have hd3 : dll m1 (A1 ++ [a]) := dll_drop_tail hd2 l1 n1 p1
      obtain ⟨m3, e3, l3, n3, p3, y3⟩ := store_next_ok m1 p (some h0) (by omega)
      obtain ⟨m4, e4, l4, p4, n4, y4⟩ := store_prev_ok m3 h0 (some p) (by omega)
      obtain ⟨m5, e5, l5, p5, n5, y5⟩ := store_prev_ok m4 p none (by omega)
      have hnx : ∀ x, nextOf m5 x = if x = p then some h0 else nextOf m1 x := by
        intro x; rw [n5, n4, n3]
      have hpv : ∀ x, prevOf m5 x
          = if x = p then none else if x = h0 then some p else prevOf m1 x := by
        intro x; rw [p5, p4, p3]
      refine ⟨m5, ?_, ?_, by omega, ?_, ?_⟩
      · have etl : (p :: (A1 ++ [a] ++ [])).getLast? = some a := by
          have e2 : p :: (A1 ++ [a] ++ []) = (p :: A1) ++ [a] := by simp
          rw [e2, List.getLast?_append_cons]; rfl
        rw [etl]
        simp [dllist_move_to_head, hph, ht2, hload, hep, e1, hh1, e3, e4, e5, bind,
          Except.bind, pure, Except.pure]
      · simpa using dll_cons hd3 hh0 hpA (by omega) (by omega) hnx hpv
      · intro x hx
        simp only [List.mem_append, List.mem_cons, List.not_mem_nil, or_false, not_or] at hx
        rw [hnx, if_neg hx.2, n1, if_neg hx.1.2]
      · intro x; rw [y5, y4, y3, y1]
    | cons b B =>
      have hd4 : dll c.mem ((A1 ++ [a]) ++ p :: b :: B) := hd
      have hlk2 : link c.mem p b := link_of_dll hd4
      rw [hlk2.1] at hen
      have hbl : b < c.mem.length := hd.2.1 b (by simp)
      have hne2 : ¬ some p = c.tail := by
        rw [ht]
        have e1 : A1 ++ [a] ++ p :: b :: B = (A1 ++ [a, p]) ++ b :: B := by simp
        rw [e1, List.getLast?_append_cons]
        intro e
        have hm : p ∈ b :: B := List.mem_of_getLast?_eq_some e.symm
        have e2 : A1 ++ [a] ++ p :: b :: B = (A1 ++ [a]) ++ ([p] ++ b :: B) := by simp
        rw [e2] at hnd
        have := (List.nodup_append.mp (List.nodup_append.mp hnd).2.1).2.2
        exact this (by simp) hm
      have hpa : p ≠ a := fun e => hpA (by simp [e])
      obtain ⟨m1, e1, l1, n1, p1, y1⟩ := store_next_ok c.mem a (some b) hal
      obtain ⟨e', _, hload', hen', hep'⟩ := load_ok m1 p (by omega)
      rw [n1, if_neg hpa, hlk2.1] at hen'
      rw [p1, hlk.2] at hep'
      obtain ⟨m2, e2, l2, p2, n2, y2⟩ := store_prev_ok m1 b (some a) (by omega)
      have hd3 : dll m2 (A1 ++ a :: b :: B) := by
        refine dll_unlink_mid hd2 (by omega) ?_ ?_
        · intro x; rw [n2, n1]
        · intro x; rw [p2, p1]
      obtain ⟨m3, e3, l3, n3, p3, y3⟩ := store_next_ok m2 p (some h0) (by omega)
      obtain ⟨m4, e4, l4, p4, n4, y4⟩ := store_prev_ok m3 h0 (some p) (by omega)
      obtain ⟨m5, e5, l5, p5, n5, y5⟩ := store_prev_ok m4 p none (by omega)
      have hnx : ∀ x, nextOf m5 x = if x = p then some h0 else nextOf m2 x := by
        intro x; rw [n5, n4, n3]
      have hpv : ∀ x, prevOf m5 x
          = if x = p then none else if x = h0 then some p else prevOf m2 x := by
        intro x; rw [p5, p4, p3]
      have hpn : p ∉ A1 ++ a :: b :: B := by
        intro h
        have e2 : A1 ++ [a] ++ p :: b :: B = (A1 ++ [a]) ++ ([p] ++ b :: B) := by simp
        rw [e2] at hnd
        have h1 := (List.nodup_append.mp (List.nodup_append.mp hnd).2.1).2.2
        simp only [List.mem_append, List.mem_cons] at h
        rcases h with h | h | h
        · exact hpA (by simp [h])
        · exact hpa h
        · exact @h1 p (by simp) (by simpa using h)
      have hh2 : (A1 ++ a :: b :: B).head? = some h0 := by
        cases A1 with
        | nil => simpa using hh0
        | cons a0 A1 => simpa using hh0
      refine ⟨m5, ?_, ?_, by omega, ?_, ?_⟩
      · have etl : (p :: (A1 ++ [a] ++ b :: B)).getLast? = c.tail := by
          rw [ht]
          have e1 : A1 ++ [a] ++ p :: b :: B = (A1 ++ [a, p]) ++ b :: B := by simp
          have e2 : p :: (A1 ++ [a] ++ b :: B) = (p :: (A1 ++ [a])) ++ b :: B := by simp
          rw [e1, e2, List.getLast?_append_cons, List.getLast?_append_cons]
        rw [etl]
        simp [dllist_move_to_head, hph, hne2, hload, hep, hen, e1, hload', hen', hep', e2,
          hh1, e3, e4, e5, bind, Except.bind, pure, Except.pure]
      · simpa using dll_cons hd3 hh2 hpn (by omega) (by omega) hnx hpv
      · intro x hx
        simp only [List.mem_append, List.mem_cons, List.not_mem_nil, or_false, not_or] at hx
        rw [hnx, if_neg hx.2.1, n2, n1, if_neg hx.1.2]
      · intro x; rw [y5, y4, y3, y2, y1]

/-! ## Traversal of a well-formed list -/

theorem exists_two_last (L : List Nat) (h : 2 ≤ L.length) :
    ∃ A b t, L = A ++ [b, t] := by
  rcases List.eq_nil_or_concat L with rfl | ⟨L1, t, rfl⟩
  · simp at h
  · rcases List.eq_nil_or_concat L1 with rfl | ⟨A, b, rfl⟩
    · simp at h
    · exact ⟨A, b, t, by simp⟩

theorem walk_next_dll (m : List cache_entry) : ∀ (L : List Nat) (n : Nat),
    L.Chain' (link m) → (∀ a, L.getLast? = some a → nextOf m a = none) → L.length ≤ n →
    walk_next m n L.head? = L := by
  intro L
  induction L with
  | nil => intro n _ _ _; cases n <;> simp [walk_next]
  | cons a r ih =>
    intro n hch hlast hlen
    cases n with
    | zero => simp at hlen
    | succ n =>
      simp only [List.head?_cons, walk_next, List.cons.injEq, true_and]
      cases r with
      | nil =>
        rw [hlast a (by simp)]
        cases n <;> simp [walk_next]
      | cons b r =>
        rw [List.chain'_cons] at hch
        rw [hch.1.1]
        exact ih n hch.2 (fun x hx => hlast x (by simpa using hx))
          (by simp only [List.length_cons] at hlen ⊢; omega)

theorem dll_length_le {m : List cache_entry} {L : List Nat} (hd : dll m L) :
    L.length ≤ m.length := by
  have hsub : L ⊆ List.range m.length := by
    intro a ha
    exact List.mem_range.mpr (hd.2.1 a ha)
  have := (List.subperm_of_subset hd.1 hsub).length_le
  simpa using this

/-! ## `cache_put` in two phases -/

theorem cache_put_eq_linked (c : cache) (path ct : String) (content : List Nat) (len : Int) :
    cache_put c path ct content len
      = match cache_put_linked c path ct content len with
        | .ok c3 => cache_put_loop (c3.cur_size - c3.max_size).toNat c3 path
        | .error f => .error f := by
  simp only [cache_put, cache_put_linked, bind, Except.bind, pure, Except.pure]
  cases init_entry (malloc c).2.mem (malloc c).1 path ct content len with
  | error f => rfl
  | ok m0 =>
    simp only []
    cases dllist_insert_head _ _ <;> rfl

theorem cache_put_of_linked (c : cache) (path ct : String) (content : List Nat) (len : Int)
    (c3 : cache) (r : Except Fault cache)
    (h1 : cache_put_linked c path ct content len = .ok c3)
    (h2 : cache_put_loop (c3.cur_size - c3.max_size).toNat c3 path = r) :
    cache_put c path ct content len = r := by
  rw [cache_put_eq_linked, h1]
  exact h2

/-! ## What a call that returns guarantees

These facts hold in every state, whatever the heap and the allocator hold: they
say nothing on whether the call returns. -/

theorem bind_ok {α β : Type} {x : Except Fault α} {f : α → Except Fault β} {b : β}
    (h : (x >>= f) = .ok b) : ∃ a, x = .ok a ∧ f a = .ok b := by
  cases x with
  | error e => simp [bind, Except.bind] at h
  | ok a => exact ⟨a, rfl, h⟩

theorem free_head (c : cache) (p : Option Ptr) : (free c p).head = c.head := by
  cases p <;> rfl

theorem free_entry_head (c : cache) (p : Option Ptr) (c1 : cache)
    (h : free_entry c p = .ok c1) : c1.head = c.head := by
  cases p with
  | none => simp only [free_entry, Except.ok.injEq] at h; subst h; rfl
  | some a =>
    simp only [free_entry] at h
    obtain ⟨e, _, h⟩ := bind_ok h
    simp only [pure, Except.pure, Except.ok.injEq] at h
    subst h
    simp only [free_head]

theorem dllist_remove_tail_head (c : cache) (r : Option Ptr × cache)
    (h : dllist_remove_tail c = .ok r) : r.2.head = c.head := by
  unfold dllist_remove_tail at h
  obtain ⟨e, _, h⟩ := bind_ok h
  obtain ⟨m1, _, h⟩ := bind_ok h
  simp only [pure, Except.pure, Except.ok.injEq] at h
  subst h
  rfl

theorem cache_put_loop_head (fuel : Nat) : ∀ (c : cache) (path : String) (c1 : cache),
    cache_put_loop fuel c path = .ok c1 → c1.head = c.head := by
  induction fuel with
  | zero =>
    intro c path c1 h
    unfold cache_put_loop at h
    split at h
    · simp at h
    · simp only [Except.ok.injEq] at h
      subst h
      rfl
  | succ n ih =>
    intro c path c1 h
    unfold cache_put_loop at h
    split at h
    · obtain ⟨r, hr, h⟩ := bind_ok h
      obtain ⟨ot, c2⟩ := r
      obtain ⟨c3, hf, h⟩ := bind_ok h
      rw [ih _ _ _ h]
      simp only []
      rw [free_entry_head _ _ _ hf]
      exact dllist_remove_tail_head c _ hr
    · simp only [Except.ok.injEq] at h
      subst h
      rfl

theorem dllist_insert_head_head (c : cache) (e : Nat) (c1 : cache)
    (h : dllist_insert_head c e = .ok c1) : c1.head = some e := by
  unfold dllist_insert_head at h
  split at h
  · obtain ⟨m1, _, h⟩ := bind_ok h
    obtain ⟨m2, _, h⟩ := bind_ok h
    simp only [pure, Except.pure, Except.ok.injEq] at h
    subst h
    rfl
  · obtain ⟨m1, _, h⟩ := bind_ok h
    obtain ⟨m2, _, h⟩ := bind_ok h
    obtain ⟨m3, _, h⟩ := bind_ok h
    simp only [pure, Except.pure, Except.ok.injEq] at h
    subst h
    rfl

theorem cache_put_linked_head (c : cache) (path ct : String) (content : List Nat) (len : Int)
    (c3 : cache) (h : cache_put_linked c path ct content len = .ok c3) :
    c3.head = some (malloc c).1 := by
  unfold cache_put_linked at h
  dsimp only at h
  obtain ⟨m0, _, h⟩ := bind_ok h
  obtain ⟨c2, h2, h⟩ := bind_ok h
  simp only [pure, Except.pure, Except.ok.injEq] at h
  subst h
  exact dllist_insert_head_head _ _ c2 h2

theorem cache_put_head (c : cache) (path ct : String) (content : List Nat) (len : Int)
    (c1 : cache) (h : cache_put c path ct content len = .ok c1) :
    c1.head = some (malloc c).1 := by
  rw [cache_put_eq_linked] at h
  cases hl : cache_put_linked c path ct content len with
  | error f => rw [hl] at h; simp at h
  | ok c3 =>
    rw [hl] at h
    rw [cache_put_loop_head _ _ _ _ h]
    exact cache_put_linked_head c path ct content len c3 hl

theorem cache_put_loop_bound (fuel : Nat) : ∀ (c : cache) (path : String) (c1 : cache),
    cache_put_loop fuel c path = .ok c1 → c1.cur_size ≤ c1.max_size := by
  induction fuel with
  | zero =>
    intro c path c1 h
    unfold cache_put_loop at h
    split at h
    · simp at h
    · simp only [Except.ok.injEq] at h
      subst h
      exact not_lt.mp ‹_›
  | succ n ih =>
    intro c path c1 h
    unfold cache_put_loop at h
    split at h
    · cases hr : dllist_remove_tail c with
      | error f => rw [hr] at h; simp [bind, Except.bind] at h
      | ok r =>
        obtain ⟨ot, c2⟩ := r
        rw [hr] at h
        simp only [bind, Except.bind] at h
        cases hf : free_entry { c2 with index := hashtable_delete c2.index path } ot with
        | error f => rw [hf] at h; simp at h
        | ok c3 =>
          rw [hf] at h
          exact ih _ _ _ h
    · simp only [Except.ok.injEq] at h
      subst h
      exact not_lt.mp ‹_›

theorem cache_put_bound (c : cache) (path ct : String) (content : List Nat) (len : Int)
    (c1 : cache) (h : cache_put c path ct content len = .ok c1) :
    c1.cur_size ≤ c1.max_size := by
  rw [cache_put_eq_linked] at h
  cases hl : cache_put_linked c path ct content len with
  | error f => rw [hl] at h; simp at h
  | ok c3 =>
    rw [hl] at h
    exact cache_put_loop_bound _ _ _ _ h

theorem dllist_move_to_head_head (c : cache) (e : Nat) (c1 : cache)
    (h : dllist_move_to_head c e = .ok c1) : c1.head = some e := by
  unfold dllist_move_to_head at h
  split at h
  · dsimp only at h
    split at h
    · obtain ⟨e1, _, h⟩ := bind_ok h
      obtain ⟨m1, _, h⟩ := bind_ok h
      obtain ⟨y, _, h⟩ := bind_ok h
      obtain ⟨m3, _, h⟩ := bind_ok h
      obtain ⟨m4, _, h⟩ := bind_ok h
      obtain ⟨m5, _, h⟩ := bind_ok h
      simp only [pure, Except.pure, Except.ok.injEq] at h
      subst h
      rfl
    · obtain ⟨e1, _, h⟩ := bind_ok h
      obtain ⟨m1, _, h⟩ := bind_ok h
      obtain ⟨e2, _, h⟩ := bind_ok h
      obtain ⟨m2, _, h⟩ := bind_ok h
      obtain ⟨y, _, h⟩ := bind_ok h
      obtain ⟨m3, _, h⟩ := bind_ok h
      obtain ⟨m4, _, h⟩ := bind_ok h
      obtain ⟨m5, _, h⟩ := bind_ok h
      simp only [pure, Except.pure, Except.ok.injEq] at h
      subst h
      rfl
  · rename_i hh
    simp only [pure, Except.pure, Except.ok.injEq] at h
    subst h
    simpa [eq_comm] using hh

theorem cache_get_hit_head (c : cache) (path : String) (e : Nat) (c1 : cache)
    (h : cache_get c path = .ok (some e, c1)) : c1.head = some e := by
  unfold cache_get at h
  split at h
  · simp at h
  · rename_i p hp
    obtain ⟨c2, hm, h⟩ := bind_ok h
    simp only [pure, Except.pure, Except.ok.injEq, Prod.mk.injEq, Option.some.injEq] at h
    obtain ⟨rfl, rfl⟩ := h
    exact dllist_move_to_head_head c p c2 hm

/-! ## The scenarios, step by step -/

theorem cap2_put_a :
    cache_put (cache_create 2 0) "a" "text/html" [1] 1 = .ok cap2_after_a := by rfl

theorem cap2_put_b : cache_put cap2_after_a "b" "text/css" [2, 2] 2 = .ok cap2_after_ab := by rfl

theorem cap2_put_c :
    cache_put cap2_after_ab "c" "text/plain" [3, 3, 3] 3 = .ok cap2_after_abc :=
  cache_put_of_linked _ _ _ _ _ cap2_abc_linked _ (by rfl) (by rfl)

theorem cap2_put_d :
    cache_put cap2_after_abc "d" "text/xml" [4, 4, 4, 4] 4 = .ok cap2_after_abcd := by rfl

theorem cap2_put_e_linked :
    cache_put_linked cap2_after_abcd "e" "text/csv" [5, 5, 5, 5, 5] 5 = .ok cap2_abcde_linked := by
  rfl

theorem cap2_put_e :
    cache_put cap2_after_abcd "e" "text/csv" [5, 5, 5, 5, 5] 5 = .error Fault.null_deref :=
  cache_put_of_linked _ _ _ _ _ cap2_abcde_linked _ cap2_put_e_linked (by rfl)

theorem cap2_get_a : cache_get cap2_after_ab "a" = .ok (some 0, cap2_after_ab_geta) := by rfl

theorem cap2_geta_put_c :
    cache_put cap2_after_ab_geta "c" "text/plain" [3, 3, 3] 3 = .ok cap2_after_ab_geta_c :=
  cache_put_of_linked _ _ _ _ _ cap2_ab_geta_c_linked _ (by rfl) (by rfl)

theorem cap1_put_a :
    cache_put (cache_create 1 0) "a" "text/html" [1] 1 = .ok cap1_after_a := by rfl

theorem cap1_put_b : cache_put cap1_after_a "b" "text/css" [2, 2] 2 = .ok cap1_after_ab :=
  cache_put_of_linked _ _ _ _ _ cap1_ab_linked _ (by rfl) (by rfl)

theorem cap1_put_c :
    cache_put cap1_after_ab "c" "text/plain" [3, 3, 3] 3 = .ok cap1_after_abc := by rfl

theorem cap1_put_d_linked :
    cache_put_linked cap1_after_abc "d" "text/xml" [4, 4, 4, 4] 4 = .ok cap1_abcd_linked := by
  rfl

theorem cap1_put_d :
    cache_put cap1_after_abc "d" "text/xml" [4, 4, 4, 4] 4 = .error Fault.null_deref :=
  cache_put_of_linked _ _ _ _ _ cap1_abcd_linked _ cap1_put_d_linked (by rfl)

theorem run_cap2_abc :
    run (cache_create 2 0) [.put "a" "text/html" [1] 1, .put "b" "text/css" [2, 2] 2,
      .put "c" "text/plain" [3, 3, 3] 3] = .ok cap2_after_abc := by
  simp only [run, step, cap2_put_a, cap2_put_b, cap2_put_c]

theorem run_cap2_abcd :
    run (cache_create 2 0) [.put "a" "text/html" [1] 1, .put "b" "text/css" [2, 2] 2,
      .put "c" "text/plain" [3, 3, 3] 3, .put "d" "text/xml" [4, 4, 4, 4] 4]
      = .ok cap2_after_abcd := by
  simp only [run, step, cap2_put_a, cap2_put_b, cap2_put_c, cap2_put_d]

theorem run_cap2_abcde :
    run (cache_create 2 0) [.put "a" "text/html" [1] 1, .put "b" "text/css" [2, 2] 2,
      .put "c" "text/plain" [3, 3, 3] 3, .put "d" "text/xml" [4, 4, 4, 4] 4,
      .put "e" "text/csv" [5, 5, 5, 5, 5] 5] = .error Fault.null_deref := by
  simp only [run, step, cap2_put_a, cap2_put_b, cap2_put_c, cap2_put_d, cap2_put_e]

theorem run_cap2_ab :
    run (cache_create 2 0) [.put "a" "text/html" [1] 1, .put "b" "text/css" [2, 2] 2]
      = .ok cap2_after_ab := by
  simp only [run, step, cap2_put_a, cap2_put_b]

theorem run_cap2_ab_geta_c :
    run (cache_create 2 0) [.put "a" "text/html" [1] 1, .put "b" "text/css" [2, 2] 2,
      .get "a", .put "c" "text/plain" [3, 3, 3] 3] = .ok cap2_after_ab_geta_c := by
  simp only [run, step, cap2_put_a, cap2_put_b, cap2_get_a, cap2_geta_put_c]

theorem run_cap1_a :
    run (cache_create 1 0) [.put "a" "text/html" [1] 1] = .ok cap1_after_a := by
  simp only [run, step, cap1_put_a]

theorem run_cap1_ab :
    run (cache_create 1 0) [.put "a" "text/html" [1] 1, .put "b" "text/css" [2, 2] 2]
      = .ok cap1_after_ab := by
  simp only [run, step, cap1_put_a, cap1_put_b]

theorem run_cap1_abc :
    run (cache_create 1 0) [.put "a" "text/html" [1] 1, .put "b" "text/css" [2, 2] 2,
      .put "c" "text/plain" [3, 3, 3] 3] = .ok cap1_after_abc := by
  simp only [run, step, cap1_put_a, cap1_put_b, cap1_put_c]

/-! ## The claims -/

/-- C1 (fails on the code): capacity 2, `put a`, `put b`, `put c`.  The spec
expects `get a` absent and `get b`, `get c` hits.  In the code the eviction
deletes the key of the entry just inserted: `get c` is absent, the index still
maps `a` to the released entry, `get a` dereferences its null `next`, and only
`get b` hits. -/
theorem three_puts_lose_newest_key :
    run (cache_create 2 0) [.put "a" "text/html" [1] 1, .put "b" "text/css" [2, 2] 2,
      .put "c" "text/plain" [3, 3, 3] 3] = .ok cap2_after_abc ∧
    cache_get cap2_after_abc "c" = .ok (none, cap2_after_abc) ∧
    hashtable_get cap2_after_abc.index "a" = some 0 ∧
    cache_get cap2_after_abc "a" = .error Fault.null_deref ∧
    (cache_get cap2_after_abc "b").toOption.map Prod.fst = some (some 1) :=
  ⟨run_cap2_abc, by rfl, by rfl, by rfl, by rfl⟩

/-- C2 (fails on the code): in the reachable state of a full cache of capacity 1
holding `a`, `put b` immediately followed by `get b` returns absent, because the
eviction inside `put b` deletes the key `b` from the index. -/
theorem put_then_get_absent_when_full :
    run (cache_create 1 0) [.put "a" "text/html" [1] 1] = .ok cap1_after_a ∧
    cache_put cap1_after_a "b" "text/css" [2, 2] 2 = .ok cap1_after_ab ∧
    cache_get cap1_after_ab "b" = .ok (none, cap1_after_ab) :=
  ⟨run_cap1_a, cap1_put_b, by rfl⟩

/-- C3 (fails on the code): capacity 2, `put a`, `put b`, `get a`, `put c`.  The
entry `b` is evicted from the list and `get a` hits (entry 0), as the spec says,
but the key `b` stays in the index, so `get b` is not absent: it finds the
released entry and dereferences its null `next`. -/
theorem promoted_key_survives_but_evicted_key_stays_indexed :
    run (cache_create 2 0) [.put "a" "text/html" [1] 1, .put "b" "text/css" [2, 2] 2,
      .get "a", .put "c" "text/plain" [3, 3, 3] 3] = .ok cap2_after_ab_geta_c ∧
    entries_from_head cap2_after_ab_geta_c = [2, 0] ∧
    hashtable_get cap2_after_ab_geta_c.index "b" = some 1 ∧
    cache_get cap2_after_ab_geta_c "b" = .error Fault.null_deref ∧
    (cache_get cap2_after_ab_geta_c "a").toOption.map Prod.fst = some (some 0) :=
  ⟨run_cap2_ab_geta_c, by rfl, by rfl, by rfl, by rfl⟩

/-- C4 (fails on the code): capacity 1 holding `a` (entry 0, the tail), `put b`.
The entry removed from the list and released is the old tail, entry 0, but the
key deleted from the index is `b`, the key of the entry just inserted: afterwards
the index still contains `a` and no longer maps `b`. -/
theorem eviction_deletes_the_new_key :
    run (cache_create 1 0) [.put "a" "text/html" [1] 1] = .ok cap1_after_a ∧
    cap1_after_a.tail = some 0 ∧
    payloadOf cap1_after_a.mem 0 = some ("a", "text/html", 1, [1]) ∧
    cache_put cap1_after_a "b" "text/css" [2, 2] 2 = .ok cap1_after_ab ∧
    entries_from_head cap1_after_ab = [1] ∧
    freed_obj.entry 0 ∈ cap1_after_ab.freed ∧
    hashtable_get cap1_after_ab.index "a" = some 0 ∧
    hashtable_get cap1_after_ab.index "b" = none :=
  ⟨run_cap1_a, by rfl, by rfl, cap1_put_b, by rfl, by decide, by rfl, by rfl⟩

/-- C5 (fails on the code): capacity 2 and the puts of `a`, `b`, `c`, `d`, `e`.
The first four puts return with `cur_size ≤ max_size`.  The eviction in `put c`
released block 1 although it stayed the tail of the list, and `put e` gets this
block from `malloc`: with `cur_size` 3 above `max_size` 2 the eviction loop calls
`dllist_remove_tail`, which dereferences the null pointer.  The fifth put does
not return, so the sequence has no state after it in which the bound holds. -/
theorem fifth_put_faults_above_capacity :
    run (cache_create 2 0) [.put "a" "text/html" [1] 1, .put "b" "text/css" [2, 2] 2,
      .put "c" "text/plain" [3, 3, 3] 3, .put "d" "text/xml" [4, 4, 4, 4] 4]
      = .ok cap2_after_abcd ∧
    cap2_after_abcd.cur_size ≤ cap2_after_abcd.max_size ∧
    cache_put_linked cap2_after_abcd "e" "text/csv" [5, 5, 5, 5, 5] 5 = .ok cap2_abcde_linked ∧
    cap2_abcde_linked.cur_size = 3 ∧ cap2_abcde_linked.max_size = 2 ∧
    cache_put cap2_after_abcd "e" "text/csv" [5, 5, 5, 5, 5] 5 = .error Fault.null_deref ∧
    run (cache_create 2 0) [.put "a" "text/html" [1] 1, .put "b" "text/css" [2, 2] 2,
      .put "c" "text/plain" [3, 3, 3] 3, .put "d" "text/xml" [4, 4, 4, 4] 4,
      .put "e" "text/csv" [5, 5, 5, 5, 5] 5] = .error Fault.null_deref :=
  ⟨run_cap2_abcd, by decide, cap2_put_e_linked, by rfl, by rfl, cap2_put_e, run_cap2_abcde⟩

/-- C6 (fails on the code): capacity 2, `put a`, `put b`, `put c`.  The put of
the fresh key `c` into the full cache lowers `cur_size` twice for its one
eviction: afterwards `cur_size` is 1, while two entries are reachable from
`head` via `next`, two from `tail` via `prev`, the index holds two keys and the
capacity is 2. -/
theorem size_differs_from_entry_count :
    run (cache_create 2 0) [.put "a" "text/html" [1] 1, .put "b" "text/css" [2, 2] 2]
      = .ok cap2_after_ab ∧
    cap2_after_ab.cur_size = cap2_after_ab.max_size ∧
    cache_put cap2_after_ab "c" "text/plain" [3, 3, 3] 3 = .ok cap2_after_abc ∧
    cap2_after_abc.cur_size = 1 ∧ cap2_after_abc.max_size = 2 ∧
    (entries_from_head cap2_after_abc).length = 2 ∧
    (entries_from_tail cap2_after_abc).length = 2 ∧
    cap2_after_abc.index.length = 2 :=
  ⟨run_cap2_ab, by rfl, cap2_put_c, by rfl, by rfl, by rfl, by rfl, by rfl⟩

/-- C7 (fails on the code): capacity 1 and the puts of the distinct keys `a`,
`b`, `c`.  After the third put two entries are reachable from `head` via `next`,
more than the capacity: the eviction in `put b` left `cur_size` at 0, so
`put c` evicts nothing. -/
theorem list_exceeds_capacity :
    run (cache_create 1 0) [.put "a" "text/html" [1] 1, .put "b" "text/css" [2, 2] 2,
      .put "c" "text/plain" [3, 3, 3] 3] = .ok cap1_after_abc ∧
    cap1_after_abc.max_size = 1 ∧
    entries_from_head cap1_after_abc = [0, 1] ∧
    ¬ ((entries_from_head cap1_after_abc).length : Int) ≤ cap1_after_abc.max_size :=
  ⟨run_cap1_abc, by rfl, by rfl, by decide⟩

/-- C8 (fails on the code): capacity 1, `put a`, `put b` (distinct keys).  The
index then holds exactly the key `a`, the recency list exactly the entry with
key `b`. -/
theorem index_keys_differ_from_list_keys :
    run (cache_create 1 0) [.put "a" "text/html" [1] 1, .put "b" "text/css" [2, 2] 2]
      = .ok cap1_after_ab ∧
    index_keys cap1_after_ab = ["a"] ∧
    keys_of cap1_after_ab.mem (entries_from_head cap1_after_ab) = ["b"] :=
  ⟨run_cap1_ab, by rfl, by rfl⟩

/-- C9 (fails on the code): capacity 1 holding `a`, `put b`.  When the put
returns, `head` is the block of the new entry (block 1), but the eviction inside
this put has passed that block to `free` as the `prev` of the old tail: the head
of the list is a released block, the next but one that `malloc` hands out.  Two
puts later, in the reachable state after `put c`, `malloc` hands it out while it
is the tail of the list, and `put d` does not complete. -/
theorem put_leaves_released_block_at_head :
    run (cache_create 1 0) [.put "a" "text/html" [1] 1] = .ok cap1_after_a ∧
    cache_put cap1_after_a "b" "text/css" [2, 2] 2 = .ok cap1_after_ab ∧
    cap1_after_ab.head = some 1 ∧
    freed_obj.entry 1 ∈ cap1_after_ab.freed ∧
    cap1_after_ab.avail = [0, 1] ∧
    run (cache_create 1 0) [.put "a" "text/html" [1] 1, .put "b" "text/css" [2, 2] 2,
      .put "c" "text/plain" [3, 3, 3] 3] = .ok cap1_after_abc ∧
    (malloc cap1_after_abc).1 = 1 ∧
    cache_put cap1_after_abc "d" "text/xml" [4, 4, 4, 4] 4 = .error Fault.null_deref :=
  ⟨run_cap1_a, cap1_put_b, by rfl, by decide, by rfl, run_cap1_abc, by rfl, cap1_put_d⟩

/-- C10: for every cache state and every key that the index does not hold,
`cache_get` returns NULL and the whole state (size, head, tail, the links of
every entry, the index) is unchanged. -/
theorem cache_get_miss_changes_nothing (c : cache) (path : String)
    (hmiss : hashtable_get c.index path = none) : cache_get c path = .ok (none, c) := by
  simp only [cache_get, hmiss]

/-- Witness of C10: the key `c` in the cache holding `a` and `b`. -/
theorem cache_get_miss_changes_nothing_witness :
    hashtable_get cap2_after_ab.index "c" = none ∧
    cache_get cap2_after_ab "c" = .ok (none, cap2_after_ab) :=
  ⟨by rfl, cache_get_miss_changes_nothing cap2_after_ab "c" (by rfl)⟩

/-! ## Well-formedness by traversal -/

theorem walk_next_head (m : List cache_entry) (n : Nat) (p : Option Nat) (y : Nat)
    (h : (walk_next m n p).head? = some y) : p = some y := by
  cases n with
  | zero => simp [walk_next] at h
  | succ n =>
    cases p with
    | none => simp [walk_next] at h
    | some a => simpa [walk_next] using h

theorem walk_prev_head (m : List cache_entry) (n : Nat) (p : Option Nat) (y : Nat)
    (h : (walk_prev m n p).head? = some y) : p = some y := by
  cases n with
  | zero => simp [walk_prev] at h
  | succ n =>
    cases p with
    | none => simp [walk_prev] at h
    | some a => simpa [walk_prev] using h

theorem walk_next_chain (m : List cache_entry) : ∀ (n : Nat) (p : Option Nat),
    (walk_next m n p).Chain' (fun x y => nextOf m x = some y) := by
  intro n
  induction n with
  | zero => intro p; simp [walk_next]
  | succ n ih =>
    intro p
    cases p with
    | none => simp [walk_next]
    | some a =>
      simp only [walk_next]
      rw [List.chain'_cons']
      exact ⟨fun y hy => walk_next_head m n _ y hy, ih _⟩

theorem walk_prev_dll (m : List cache_entry) : ∀ (L : List Nat) (n : Nat),
    L.Chain' (link m) → (∀ a, L.head? = some a → prevOf m a = none) → L.length ≤ n →
    walk_prev m n L.getLast? = L.reverse := by
  intro L
  induction L using List.reverseRecOn with
  | nil => intro n _ _ _; cases n <;> simp [walk_prev]
  | append_singleton L a ih =>
    intro n hch hhead hlen
    cases n with
    | zero => simp at hlen
    | succ n =>
      have e1 : (L ++ [a]).getLast? = some a := by simp
      rw [e1]
      simp only [walk_prev, List.reverse_append, List.reverse_cons, List.reverse_nil,
        List.nil_append, List.singleton_append, List.cons.injEq, true_and]
      have hpv : prevOf m a = L.getLast? := by
        rcases List.eq_nil_or_concat L with rfl | ⟨L1, b, rfl⟩
        · simpa using hhead a (by simp)
        · simp only [List.concat_eq_append, List.append_assoc, List.singleton_append] at hch
          have := (List.chain'_split.mp hch).2
          rw [List.chain'_cons] at this
          simp [this.1.2]
      rw [hpv]
      refine ih n (List.Chain'.left_of_append hch) ?_ (by simp at hlen; omega)
      intro x hx
      apply hhead
      cases L with
      | nil => simp at hx
      | cons a0 L => simpa using hx

theorem list_is_entries (c : cache) (L : List Nat) (h : list_is c L) :
    entries_from_head c = L ∧ entries_from_tail c = L.reverse := by
  obtain ⟨hd, hh, ht⟩ := h
  unfold entries_from_head entries_from_tail
  rw [hh, ht]
  exact ⟨walk_next_dll c.mem L c.mem.length hd.2.2.1 hd.2.2.2.2 (dll_length_le hd),
    walk_prev_dll c.mem L c.mem.length hd.2.2.1 hd.2.2.2.1 (dll_length_le hd)⟩

theorem chain_link_next {m : List cache_entry} {L : List Nat} (hch : L.Chain' (link m)) :
    ∀ x ∈ L, ∀ y, nextOf m x = some y → L.getLast? ≠ some x → prevOf m y = some x := by
  induction L with
  | nil => intro x hx; simp at hx
  | cons a r ih =>
    intro x hx y hy hlast
    cases r with
    | nil => simp at hx; subst hx; simp at hlast
    | cons b r =>
      rw [List.chain'_cons] at hch
      rcases List.mem_cons.mp hx with rfl | hx2
      · have := hch.1.1
        rw [hy] at this
        simp only [Option.some.injEq] at this
        rw [this]; exact hch.1.2
      · exact ih hch.2 x hx2 y hy (by simpa using hlast)

theorem list_wf_of_list_is (c : cache) (L : List Nat) (h : list_is c L) : list_wf c := by
  obtain ⟨e1, e2⟩ := list_is_entries c L h
  obtain ⟨hd, hh, ht⟩ := h
  obtain ⟨hnd, hval, hch, hhd, hlast⟩ := hd
  refine ⟨?_, ?_, ?_, ?_, ?_⟩
  · intro a ha
    rw [hh] at ha
    exact ⟨hval a (List.mem_of_mem_head? ha), hhd a ha⟩
  · intro a ha
    rw [ht] at ha
    exact ⟨hval a (List.mem_of_getLast?_eq_some ha), hlast a ha⟩
  · rw [e1, e2, List.reverse_reverse]
  · rw [e1]; exact hval
  · rw [e1]
    intro x hx y hy
    refine chain_link_next hch x hx y hy ?_
    intro hl
    rw [hlast x hl] at hy
    simp at hy

theorem chain_tail_has_pred {m : List cache_entry} : ∀ {L : List Nat}, L.Chain' (link m) →
    ∀ y ∈ L.tail, ∃ x ∈ L, prevOf m y = some x := by
  intro L
  induction L with
  | nil => intro _ y hy; simp at hy
  | cons a r ih =>
    intro hch y hy
    cases r with
    | nil => simp at hy
    | cons b r =>
      rw [List.chain'_cons] at hch
      simp only [List.tail_cons] at hy
      rcases List.mem_cons.mp hy with rfl | hy2
      · exact ⟨a, by simp, hch.1.2⟩
      · obtain ⟨x, hx, hpx⟩ := ih hch.2 y (by simpa using hy2)
        exact ⟨x, List.mem_cons_of_mem _ hx, hpx⟩

theorem chain_nodup {m : List cache_entry} : ∀ (W : List Nat) (pv : Option Nat),
    W.Chain' (link m) → (∀ a, W.head? = some a → prevOf m a = pv) →
    (∀ z, pv = some z → z ∉ W) → W.Nodup := by
  intro W
  induction W with
  | nil => intro _ _ _ _; exact List.nodup_nil
  | cons a r ih =>
    intro pv hch hhead hpv
    have ha : prevOf m a = pv := hhead a (by simp)
    have hnot : a ∉ r := by
      intro har
      obtain ⟨x, hx, hpx⟩ := chain_tail_has_pred hch a (by simpa using har)
      rw [ha] at hpx
      exact hpv x hpx hx
    refine List.nodup_cons.mpr ⟨hnot, ?_⟩
    cases r with
    | nil => exact List.nodup_nil
    | cons b r =>
      rw [List.chain'_cons] at hch
      refine ih (some a) hch.2 ?_ ?_
      · intro x hx
        simp only [List.head?_cons, Option.some.injEq] at hx
        subst hx; exact hch.1.2
      · intro z hz
        simp only [Option.some.injEq] at hz
        subst hz; exact hnot

theorem walk_next_none (m : List cache_entry) (n : Nat) : walk_next m n none = [] := by
  cases n <;> simp [walk_next]

theorem walk_prev_none (m : List cache_entry) (n : Nat) : walk_prev m n none = [] := by
  cases n <;> simp [walk_prev]

theorem list_is_of_list_wf (c : cache) (hwf : list_wf c) : list_is c (entries_from_head c) := by
  obtain ⟨hH, hT, hrev, hval, hinj⟩ := hwf
  have hch0 := walk_next_chain c.mem c.mem.length c.head
  have hch : (entries_from_head c).Chain' (link c.mem) := by
    have h1 := List.Chain'.iff_mem.mp hch0
    refine List.Chain'.imp ?_ h1
    intro x y hxy
    exact ⟨hxy.2.2, hinj x hxy.1 y hxy.2.2⟩
  have hhead : c.head = (entries_from_head c).head? := by
    cases hc : c.head with
    | none => simp [entries_from_head, hc, walk_next_none]
    | some h =>
      have hlt := (hH h hc).1
      obtain ⟨n, hn⟩ : ∃ n, c.mem.length = n + 1 := ⟨c.mem.length - 1, by omega⟩
      simp [entries_from_head, hc, hn, walk_next]
  have hT2 : entries_from_tail c = (entries_from_head c).reverse := by
    rw [hrev, List.reverse_reverse]
  have htail : c.tail = (entries_from_head c).getLast? := by
    rw [List.getLast?_eq_head?_reverse, ← hT2]
    cases hc : c.tail with
    | none => simp [entries_from_tail, hc, walk_prev_none]
    | some t =>
      have hlt := (hT t hc).1
      obtain ⟨n, hn⟩ : ∃ n, c.mem.length = n + 1 := ⟨c.mem.length - 1, by omega⟩
      simp [entries_from_tail, hc, hn, walk_prev]
  have hhd : ∀ a, (entries_from_head c).head? = some a → prevOf c.mem a = none := by
    intro a ha
    rw [← hhead] at ha
    exact (hH a ha).2
  refine ⟨⟨chain_nodup _ none hch hhd (by simp), hval, hch, hhd, ?_⟩, hhead, htail⟩
  intro a ha
  rw [← htail] at ha
  exact (hT a ha).2

theorem list_wf_iff (c : cache) : list_wf c ↔ ∃ L, list_is c L :=
  ⟨fun h => ⟨_, list_is_of_list_wf c h⟩, fun ⟨L, h⟩ => list_wf_of_list_is c L h⟩

/-! ## The list operations on a well-formed list -/

theorem insert_head_list_is (c : cache) (e : Nat) (L : List Nat) (hL : list_is c L)
    (hal : e < c.mem.length) (hnew : e ∉ L) :
    ∃ c1, dllist_insert_head c e = .ok c1 ∧ list_is c1 (e :: L) ∧
      prevOf c1.mem e = none ∧ nextOf c1.mem e = c.head ∧
      (c.head = none → c1.tail = some e) ∧
      (∀ h, c.head = some h → prevOf c1.mem h = some e ∧ c1.tail = c.tail) ∧
      c1.cur_size = c.cur_size ∧ c1.max_size = c.max_size ∧ c1.index = c.index ∧
      c1.freed = c.freed ∧ c1.mem.length = c.mem.length ∧
      (∀ x, payloadOf c1.mem x = payloadOf c.mem x) := by
  obtain ⟨hd, hh, ht⟩ := hL
  obtain ⟨m1, hins, hd1, l1, _, y1⟩ := dllist_insert_head_spec c e L hd hh ht hal hnew
  refine ⟨_, hins, ⟨hd1, rfl, rfl⟩, hd1.2.2.2.1 e (by simp), ?_, ?_, ?_, rfl, rfl, rfl, rfl,
    l1, y1⟩
  · cases L with
    | nil => rw [hh]; exact hd1.2.2.2.2 e (by simp)
    | cons h r =>
      rw [hh]
      have := hd1.2.2.1
      rw [List.chain'_cons] at this
      simpa using this.1.1
  · intro h0
    rw [hh] at h0
    cases L with
    | nil => rfl
    | cons h r => simp at h0
  · intro h h0
    rw [hh] at h0
    cases L with
    | nil => simp at h0
    | cons h1 r =>
      simp only [List.head?_cons, Option.some.injEq] at h0
      subst h0
      have := hd1.2.2.1
      rw [List.chain'_cons] at this
      exact ⟨this.1.2, by simp only [List.getLast?_cons_cons]; exact ht.symm⟩

theorem remove_tail_list_is (c : cache) (L : List Nat) (hL : list_is c L)
    (hlen : 2 ≤ L.length) :
    ∃ A b t c1, L = A ++ [b, t] ∧ dllist_remove_tail c = .ok (some t, c1) ∧
      list_is c1 (A ++ [b]) ∧ c.tail = some t ∧ prevOf c.mem t = some b ∧
      c1.tail = some b ∧ nextOf c1.mem b = none ∧ c1.head = c.head ∧
      c1.cur_size = wrap_int (c.cur_size - 1) ∧ c1.max_size = c.max_size ∧
      c1.index = c.index ∧ c1.freed = c.freed := by
  obtain ⟨hd, hh, ht⟩ := hL
  obtain ⟨A, b, t, rfl⟩ := exists_two_last L hlen
  have htl : c.tail = some t := by rw [ht]; simp
  obtain ⟨m1, hrem, hd1, l1, _, y1⟩ := dllist_remove_tail_spec c A b t hd htl
  have hhead : c.head = (A ++ [b]).head? := by
    rw [hh]
    cases A with
    | nil => simp
    | cons a0 A => simp
  exact ⟨A, b, t, _, rfl, hrem, ⟨hd1, hhead, by simp⟩, htl, (link_of_dll hd).2, rfl,
    hd1.2.2.2.2 b (by simp), rfl, rfl, rfl, rfl, rfl⟩

theorem move_to_head_list_is (c : cache) (A B : List Nat) (e : Nat)
    (hL : list_is c (A ++ e :: B)) :
    ∃ c1, dllist_move_to_head c e = .ok c1 ∧ list_is c1 (e :: (A ++ B)) ∧
      (c.head = some e → c1 = c) ∧
      (c.head ≠ some e → prevOf c1.mem e = none ∧ nextOf c1.mem e = c.head ∧
        c1.tail = if c.tail = some e then prevOf c.mem e else c.tail) ∧
      c1.cur_size = c.cur_size ∧ c1.max_size = c.max_size ∧ c1.index = c.index ∧
      c1.freed = c.freed ∧ c1.mem.length = c.mem.length ∧
      (∀ x, payloadOf c1.mem x = payloadOf c.mem x) := by
  obtain ⟨hd, hh, ht⟩ := hL
  obtain ⟨m1, hmv, hd1, l1, _, y1⟩ := dllist_move_to_head_spec c A B e hd hh ht
  have hnd := hd.1
  have heA : e ∉ A := by
    intro h
    exact (List.nodup_append.mp hnd).2.2 h (by simp)
  have heB : e ∉ B := (List.nodup_cons.mp (List.nodup_append.mp hnd).2.1).1
  refine ⟨_, hmv, ⟨hd1, rfl, rfl⟩, ?_, ?_, rfl, rfl, rfl, rfl, l1, y1⟩
  · intro hhe
    have h0 : dllist_move_to_head c e = .ok c := by
      simp [dllist_move_to_head, hhe, pure, Except.pure]
    rw [h0] at hmv
    simp only [Except.ok.injEq] at hmv
    exact hmv.symm
  · intro hne
    rcases List.eq_nil_or_concat A with rfl | ⟨A1, a, rfl⟩
    · exfalso; apply hne; rw [hh]; simp
    · simp only [List.concat_eq_append] at *
      have hhd0 : c.head = (A1 ++ [a] ++ B).head? := by
        rw [hh]
        cases A1 with
        | nil => simp
        | cons a0 A1 => simp
      refine ⟨hd1.2.2.2.1 e (by simp), ?_, ?_⟩
      · have := hd1.2.2.1
        rw [List.chain'_cons'] at this
        rw [hhd0]
        cases hA : (A1 ++ [a] ++ B).head? with
        | none =>
          cases A1 <;> simp at hA
        | some h =>
          exact (this.1 h hA).1
      · have hd2 : dll c.mem (A1 ++ a :: e :: B) := by simpa using hd
        have hpv : prevOf c.mem e = some a := (link_of_dll hd2).2
        cases B with
        | nil =>
          have htl : c.tail = some e := by rw [ht]; simp
          simp only [htl, if_true, hpv]
          have e2 : e :: (A1 ++ [a] ++ []) = (e :: A1) ++ [a] := by simp
          rw [e2, List.getLast?_append_cons]; rfl
        | cons b B =>
          have e1 : A1 ++ [a] ++ e :: b :: B = (A1 ++ [a, e]) ++ b :: B := by simp
          have htl : c.tail = (b :: B).getLast? := by
            rw [ht, e1, List.getLast?_append_cons]
          have hne2 : ¬ c.tail = some e := by
            rw [htl]; intro h
            exact heB (List.mem_of_getLast?_eq_some h)
          simp only [hne2, if_false]
          have e2 : e :: (A1 ++ [a] ++ b :: B) = (e :: (A1 ++ [a])) ++ b :: B := by simp
          rw [e2, List.getLast?_append_cons, htl]

theorem erase_split {A B : List Nat} {e : Nat} (h : e ∉ A) :
    (A ++ e :: B).erase e = A ++ B := by
  rw [List.erase_append_right _ h, List.erase_cons_head]

/-! ## The scenarios of the later claims -/

theorem run_cap2_a :
    run (cache_create 2 0) [.put "a" "text/html" [1] 1] = .ok cap2_after_a := by
  simp only [run, step, cap2_put_a]

theorem cap2_after_ab_wf : list_wf cap2_after_ab :=
  list_wf_of_list_is _ [1, 0]
    ⟨⟨by decide, by decide, List.chain'_pair.mpr ⟨by rfl, by rfl⟩,
      fun a h => by cases h; rfl, fun a h => by cases h; rfl⟩, by rfl, by rfl⟩

theorem cap1_after_a_wf : list_wf cap1_after_a :=
  list_wf_of_list_is _ [0] ⟨dll_single (by decide) (by rfl) (by rfl), by rfl, by rfl⟩

theorem cap2_after_abcd_wf : list_wf cap2_after_abcd :=
  list_wf_of_list_is _ [0, 2, 1]
    ⟨⟨by decide, by decide,
      List.chain'_cons.mpr ⟨⟨by rfl, by rfl⟩, List.chain'_pair.mpr ⟨by rfl, by rfl⟩⟩,
      fun a h => by cases h; rfl, fun a h => by cases h; rfl⟩, by rfl, by rfl⟩

theorem cap2_abcde_linked_not_wf : ¬ list_wf cap2_abcde_linked := by
  intro h
  have h3 := h.2.2.1
  have e1 : entries_from_head cap2_abcde_linked = [1, 0, 2] := by rfl
  have e2 : entries_from_tail cap2_abcde_linked = [1] := by rfl
  rw [e1, e2] at h3
  simp at h3

theorem cap2_a_b_allocated_wf : list_wf cap2_a_b_allocated :=
  list_wf_of_list_is _ [0] ⟨dll_single (by decide) (by rfl) (by rfl), by rfl, by rfl⟩

theorem cap0_put_a_linked :
    cache_put_linked (cache_create 0 0) "a" "text/html" [1] 1 = .ok cap0_a_linked := by rfl

theorem cap0_loop_faults :
    cache_put_loop 1 cap0_a_linked "a" = .error Fault.null_deref := by rfl

/-! ## The claims on creation, duplicate keys, the list operations and release -/

/-- C11 (fails on the code): `cache_create` with capacity 0 does not fail.  It
returns the empty cache of capacity 0, on which `cache_get` works and on which
`cache_put` links and indexes its entry like on any other cache. -/
theorem cache_create_admits_capacity_zero :
    cache_create 0 0 = ⟨0, 0, [], none, none, [], [], []⟩ ∧
    cache_get (cache_create 0 0) "a" = .ok (none, cache_create 0 0) ∧
    cache_put_linked (cache_create 0 0) "a" "text/html" [1] 1 = .ok cap0_a_linked :=
  ⟨by rfl, by rfl, cap0_put_a_linked⟩

/-- C11 as amended: `cache_create` validates nothing.  For every `max_size`,
below 1 or not, and every `hashsize` it returns a cache with that capacity,
size 0, null `head` and `tail`, an empty index and an empty, well-formed
recency list. -/
theorem cache_create_returns_empty_cache (max_size hashsize : Int) :
    (cache_create max_size hashsize).max_size = max_size ∧
    (cache_create max_size hashsize).cur_size = 0 ∧
    (cache_create max_size hashsize).head = none ∧
    (cache_create max_size hashsize).tail = none ∧
    index_keys (cache_create max_size hashsize) = [] ∧
    entries_from_head (cache_create max_size hashsize) = [] ∧
    list_wf (cache_create max_size hashsize) :=
  ⟨rfl, rfl, rfl, rfl, rfl, rfl,
    list_wf_of_list_is _ []
      ⟨⟨List.nodup_nil, by simp, List.chain'_nil, by simp, by simp⟩, rfl, rfl⟩⟩

/-- C13 (fails on the code): on a well-formed list with the single entry 0,
`dllist_remove_tail` sets `tail` to the null `prev` of the old tail and then
dereferences it: it does not return.  `cache_put` on a cache of capacity 0
reaches this call with its own entry as the only one, and faults. -/
theorem dllist_remove_tail_single_entry_faults :
    list_wf cap1_after_a ∧ entries_from_head cap1_after_a = [0] ∧
    dllist_remove_tail cap1_after_a = .error Fault.null_deref ∧
    cache_put_linked (cache_create 0 0) "a" "text/html" [1] 1 = .ok cap0_a_linked ∧
    entries_from_head cap0_a_linked = [0] ∧
    dllist_remove_tail cap0_a_linked = .error Fault.null_deref ∧
    cache_put (cache_create 0 0) "a" "text/html" [1] 1 = .error Fault.null_deref :=
  ⟨cap1_after_a_wf, by rfl, by rfl, cap0_put_a_linked, by rfl, by rfl, by
    rw [cache_put_eq_linked, cap0_put_a_linked]
    exact cap0_loop_faults⟩

/-- C14: `dllist_move_to_head` on a well-formed recency list and an entry `e`
linked in it returns; if `e` is already head the cache is unchanged; otherwise
`e` is then head with no `prev` and the old head as `next`, and `tail` is the
former `prev` of `e` if `e` was the tail and unchanged otherwise.  The list
becomes `e` followed by the old list with `e` erased, so the other entries keep
their order and the number of entries is the same; `cur_size` is unchanged and
the list is again well-formed. -/
theorem dllist_move_to_head_moves_entry (c : cache) (e : Nat) (hwf : list_wf c)
    (he : e ∈ entries_from_head c) :
    ∃ c1, dllist_move_to_head c e = .ok c1 ∧
      (c.head = some e → c1 = c) ∧
      (c.head ≠ some e → c1.head = some e ∧ prevOf c1.mem e = none ∧
        nextOf c1.mem e = c.head ∧
        c1.tail = if c.tail = some e then prevOf c.mem e else c.tail) ∧
      entries_from_head c1 = e :: (entries_from_head c).erase e ∧
      (entries_from_head c1).length = (entries_from_head c).length ∧
      c1.cur_size = c.cur_size ∧ list_wf c1 := by
  have hL := list_is_of_list_wf c hwf
  obtain ⟨A, B, hAB⟩ := List.append_of_mem he
  rw [hAB] at hL
  have heA : e ∉ A := by
    intro h
    exact (List.nodup_append.mp hL.1.1).2.2 h (by simp)
  obtain ⟨c1, hmv, hL1, hsame, hmoved, hsz, _⟩ := move_to_head_list_is c A B e hL
  have hent := (list_is_entries c1 _ hL1).1
  refine ⟨c1, hmv, hsame, ?_, ?_, ?_, hsz, list_wf_of_list_is c1 _ hL1⟩
  · intro hne
    exact ⟨hL1.2.1, hmoved hne⟩
  · rw [hent, hAB, erase_split heA]
  · rw [hent, hAB]
    simp only [List.length_cons, List.length_append]
    omega

/-- Witness of C14: capacity 2 after `put a`, `put b`; the tail entry 0 is moved
to the head. -/
theorem dllist_move_to_head_moves_entry_witness :
    list_wf cap2_after_ab ∧ 0 ∈ entries_from_head cap2_after_ab ∧
    ∃ c1, dllist_move_to_head cap2_after_ab 0 = .ok c1 ∧
      (cap2_after_ab.head = some 0 → c1 = cap2_after_ab) ∧
      (cap2_after_ab.head ≠ some 0 → c1.head = some 0 ∧ prevOf c1.mem 0 = none ∧
        nextOf c1.mem 0 = cap2_after_ab.head ∧
        c1.tail = if cap2_after_ab.tail = some 0 then prevOf cap2_after_ab.mem 0
          else cap2_after_ab.tail) ∧
      entries_from_head c1 = 0 :: (entries_from_head cap2_after_ab).erase 0 ∧
      (entries_from_head c1).length = (entries_from_head cap2_after_ab).length ∧
      c1.cur_size = cap2_after_ab.cur_size ∧ list_wf c1 :=
  ⟨cap2_after_ab_wf, by decide,
    dllist_move_to_head_moves_entry cap2_after_ab 0 cap2_after_ab_wf (by decide)⟩

/-- C15: `dllist_insert_head` on a well-formed recency list and an allocated
entry `e` that is not linked in it returns; `e` is then head with no `prev` and
the old head as `next` (none if the list was empty); if the list was empty `e`
is also the tail, otherwise the old head's `prev` is `e` and `tail` is
unchanged.  The list becomes `e` followed by the old list and is again
well-formed; `cur_size` is not touched. -/
theorem dllist_insert_head_links_new_head (c : cache) (e : Nat) (hwf : list_wf c)
    (hal : e < c.mem.length) (hnew : e ∉ entries_from_head c) :
    ∃ c1, dllist_insert_head c e = .ok c1 ∧
      entries_from_head c1 = e :: entries_from_head c ∧
      c1.head = some e ∧ prevOf c1.mem e = none ∧ nextOf c1.mem e = c.head ∧
      (c.head = none → c1.tail = some e) ∧
      (∀ h, c.head = some h → prevOf c1.mem h = some e ∧ c1.tail = c.tail) ∧
      c1.cur_size = c.cur_size ∧ list_wf c1 := by
  have hL := list_is_of_list_wf c hwf
  obtain ⟨c1, hins, hL1, hpv, hnx, hempty, hold, hsz, _⟩ :=
    insert_head_list_is c e _ hL hal hnew
  exact ⟨c1, hins, (list_is_entries c1 _ hL1).1, hL1.2.1, hpv, hnx, hempty, hold, hsz,
    list_wf_of_list_is c1 _ hL1⟩

/-- Witness of C15: inside `put b` on the cache of capacity 2 holding `a`, the
new entry 1 is allocated and not yet linked. -/
theorem dllist_insert_head_links_new_head_witness :
    list_wf cap2_a_b_allocated ∧ 1 < cap2_a_b_allocated.mem.length ∧
    1 ∉ entries_from_head cap2_a_b_allocated ∧
    ∃ c1, dllist_insert_head cap2_a_b_allocated 1 = .ok c1 ∧
      entries_from_head c1 = 1 :: entries_from_head cap2_a_b_allocated ∧
      c1.head = some 1 ∧ prevOf c1.mem 1 = none ∧
      nextOf c1.mem 1 = cap2_a_b_allocated.head ∧
      (cap2_a_b_allocated.head = none → c1.tail = some 1) ∧
      (∀ h, cap2_a_b_allocated.head = some h →
        prevOf c1.mem h = some 1 ∧ c1.tail = cap2_a_b_allocated.tail) ∧
      c1.cur_size = cap2_a_b_allocated.cur_size ∧ list_wf c1 :=
  ⟨cap2_a_b_allocated_wf, by decide, by decide,
    dllist_insert_head_links_new_head cap2_a_b_allocated 1 cap2_a_b_allocated_wf
      (by decide) (by decide)⟩

/-- C16 (fails on the code): capacity 1 and the puts of `a`, `b`, `c`, `d`.
The eviction in `put b` released block 1, which stayed linked; in the state
after `put c` it is the tail and the block `malloc` hands out next.  `put d`
sets its `prev` to null and links it at the head; the loop condition holds
(`cur_size` 2, `max_size` 1), `dllist_remove_tail` reads the null `prev` of the
tail into `cache->tail` and dereferences it: the underflow fault is reached. -/
theorem eviction_underflows_after_block_reuse :
    run (cache_create 1 0) [.put "a" "text/html" [1] 1, .put "b" "text/css" [2, 2] 2,
      .put "c" "text/plain" [3, 3, 3] 3] = .ok cap1_after_abc ∧
    cap1_after_abc.tail = some 1 ∧ (malloc cap1_after_abc).1 = 1 ∧
    cache_put_linked cap1_after_abc "d" "text/xml" [4, 4, 4, 4] 4 = .ok cap1_abcd_linked ∧
    cap1_abcd_linked.cur_size > cap1_abcd_linked.max_size ∧
    cap1_abcd_linked.tail = some 1 ∧ prevOf cap1_abcd_linked.mem 1 = none ∧
    dllist_remove_tail cap1_abcd_linked = .error Fault.null_deref ∧
    cache_put cap1_after_abc "d" "text/xml" [4, 4, 4, 4] 4 = .error Fault.null_deref :=
  ⟨run_cap1_abc, by rfl, by rfl, cap1_put_d_linked, by decide, by rfl, by rfl, by rfl,
    cap1_put_d⟩

/-- C17 (fails on the code): `free_entry` on entry 1 of the cache holding `a`
and `b` also releases entry 0, its `next`; `cache_free` on this cache of two
entries releases entry 0 twice and entry 1 twice. -/
theorem cache_free_releases_entries_twice :
    run (cache_create 2 0) [.put "a" "text/html" [1] 1, .put "b" "text/css" [2, 2] 2]
      = .ok cap2_after_ab ∧
    entries_from_head cap2_after_ab = [1, 0] ∧
    (free_entry cap2_after_ab (some 1)).toOption.map (fun c => c.freed)
      = some [.path "b", .content_type "text/css", .content [2, 2], .entry 0, .entry 1] ∧
    cache_free cap2_after_ab = .ok released_ab ∧
    release_count released_ab 0 = 2 ∧ release_count released_ab 1 = 2 :=
  ⟨run_cap2_ab, by rfl, by rfl, by rfl, by decide, by decide⟩

/-- On a well-formed recency list, `dllist_insert_head` of an allocated entry
that is not linked, `dllist_move_to_head` of a linked entry and
`dllist_remove_tail` on a list of at least two entries all return and leave the
list well-formed. -/
theorem list_operations_preserve_list_wf (c : cache) (hwf : list_wf c) :
    (∀ e : Nat, e < c.mem.length → e ∉ entries_from_head c →
      ∃ c1, dllist_insert_head c e = .ok c1 ∧ list_wf c1) ∧
    (∀ e : Nat, e ∈ entries_from_head c →
      ∃ c1, dllist_move_to_head c e = .ok c1 ∧ list_wf c1) ∧
    (2 ≤ (entries_from_head c).length →
      ∃ t c1, dllist_remove_tail c = .ok (some t, c1) ∧ c.tail = some t ∧ list_wf c1) := by
  have hL := list_is_of_list_wf c hwf
  refine ⟨?_, ?_, ?_⟩
  · intro e hal hnew
    obtain ⟨c1, hins, hL1, _⟩ := insert_head_list_is c e _ hL hal hnew
    exact ⟨c1, hins, list_wf_of_list_is c1 _ hL1⟩
  · intro e he
    obtain ⟨A, B, hAB⟩ := List.append_of_mem he
    rw [hAB] at hL
    obtain ⟨c1, hmv, hL1, _⟩ := move_to_head_list_is c A B e hL
    exact ⟨c1, hmv, list_wf_of_list_is c1 _ hL1⟩
  · intro hlen
    obtain ⟨A, b, t, c1, _, hrem, hL1, htl, _⟩ := remove_tail_list_is c _ hL hlen
    exact ⟨t, c1, hrem, htl, list_wf_of_list_is c1 _ hL1⟩

/-- C18 (fails on the code): capacity 2 and the puts of `a`, `b`, `c`, `d`, `e`.
After `put d` the list is well-formed with the entries 0, 2, 1.  Block 1, the
tail, was released by the eviction in `put c`, and `malloc` hands it out to
`put e`, which calls `dllist_insert_head` on an entry that is already linked:
the list is no longer well-formed (from `head` via `next` the entries 1, 0, 2
are visited, from `tail` via `prev` only entry 1), and the put does not return.
The three list operations keep well-formedness under their preconditions
(`list_operations_preserve_list_wf`); `cache_put` breaks the precondition of
the insertion. -/
theorem put_relinks_the_released_tail :
    run (cache_create 2 0) [.put "a" "text/html" [1] 1, .put "b" "text/css" [2, 2] 2,
      .put "c" "text/plain" [3, 3, 3] 3, .put "d" "text/xml" [4, 4, 4, 4] 4]
      = .ok cap2_after_abcd ∧
    list_wf cap2_after_abcd ∧
    entries_from_head cap2_after_abcd = [0, 2, 1] ∧
    freed_obj.entry 1 ∈ cap2_after_abcd.freed ∧
    (malloc cap2_after_abcd).1 = 1 ∧
    cache_put_linked cap2_after_abcd "e" "text/csv" [5, 5, 5, 5, 5] 5 = .ok cap2_abcde_linked ∧
    ¬ list_wf cap2_abcde_linked ∧
    entries_from_head cap2_abcde_linked = [1, 0, 2] ∧
    entries_from_tail cap2_abcde_linked = [1] ∧
    cache_put cap2_after_abcd "e" "text/csv" [5, 5, 5, 5, 5] 5 = .error Fault.null_deref :=
  ⟨run_cap2_abcd, cap2_after_abcd_wf, by rfl, by decide, by rfl, cap2_put_e_linked,
    cap2_abcde_linked_not_wf, by rfl, by rfl, cap2_put_e⟩

end CWebServer
